import Mathlib

/-!
Shallow embedding of `convert_ga_to_akn.py`, the converter from the
Internet-Archive Georgia OCGA XML export to Akoma Ntoso.

Python strings are modelled as `List Char` (wrapped as `String` at the
interfaces).  Each regular-expression pass of the source is modelled as a
recursive scanner following the leftmost-match semantics of `re.sub`,
`re.search`, `re.split` and `re.match` for the concrete pattern it
implements.  `xml.etree.ElementTree` trees are modelled by the inductive
type `XElem`; `ET.SubElement` mutation becomes functional construction of
the child list in program order.  Character classes (`\s`, `\d`,
`str.strip`) are modelled over ASCII, which is the alphabet the source
data and all concrete inputs here use.
-/

/-- ASCII model of Python's `\s` character class / `str.strip` whitespace. -/
def isWs (c : Char) : Bool :=
  c = ' ' || c = '\t' || c = '\n' || c = '\r' || c = '\x0b' || c = '\x0c'

/-- The `[a-z]` character class. -/
def isLowerAZ (c : Char) : Bool := 'a' ≤ c && c ≤ 'z'

/-- ASCII model of the `\d` character class. -/
def isDigitC (c : Char) : Bool := '0' ≤ c && c ≤ '9'

/-- Removal of trailing whitespace, the right half of Python `str.strip()`. -/
def rstripL : List Char → List Char
  | [] => []
  | c :: rest =>
    match rstripL rest with
    | [] => if isWs c then [] else [c]
    | l => c :: l

/-- Removal of leading whitespace, the left half of Python `str.strip()`. -/
def lstripL (l : List Char) : List Char := l.dropWhile isWs

/-- Python `str.strip()`. -/
def stripL (l : List Char) : List Char := rstripL (lstripL l)

/-- Python `s[:n]` on a string, as used for the truncation limits. -/
def takeN (s : String) (n : Nat) : String := String.mk (s.data.take n)

/-! ## The text normalizer `clean_html_content` -/

/-- Named HTML entities, modelled from Python's `html.unescape` restricted
to the semicolon-terminated entities this pipeline can meet
(`html.unescape` resolves the full HTML5 table, which the development
does not need). -/
def entityTable : List (List Char × Char) :=
  [("amp;".data, '&'), ("lt;".data, '<'), ("gt;".data, '>'),
   ("quot;".data, '"'), ("nbsp;".data, '\xa0')]

/-- Try to read one entity name right after a `&`. -/
def matchEntity (l : List Char) : Option (Char × List Char) :=
  (entityTable.filterMap (fun pr =>
    if pr.1.isPrefixOf l then some (pr.2, l.drop pr.1.length) else none)).head?

/-- Fuelled scanner for `html.unescape`: replacements are not rescanned,
exactly as in `re.sub`-style single-pass substitution. -/
def unescapeGo : Nat → List Char → List Char
  | 0, l => l
  | _ + 1, [] => []
  | fuel + 1, c :: rest =>
    if c = '&' then
      match matchEntity rest with
      | some (r, rest') => r :: unescapeGo fuel rest'
      | none => c :: unescapeGo fuel rest
    else c :: unescapeGo fuel rest

/-- `html.unescape` (restricted model, see `entityTable`). -/
def unescapeL (l : List Char) : List Char := unescapeGo l.length l

/-- ASCII case-insensitive match of one character against a pattern
character given in lowercase, as `re.IGNORECASE` reads the literal
letters of these tag patterns (non-letter pattern characters match only
themselves). -/
def lowerEq (c p : Char) : Bool :=
  c = p || (65 ≤ c.toNat && c.toNat ≤ 90 && c.toNat + 32 = p.toNat)

/-- Case-insensitive literal match of a lowercase pattern against the
head of `l`, returning the remainder. -/
def matchCI : List Char → List Char → Option (List Char)
  | [], l => some l
  | _ :: _, [] => none
  | p :: ps, c :: cs => if lowerEq c p then matchCI ps cs else none

/-- Match the tail of `<BR\s*/?>` (case-insensitive), after the `<`. -/
def matchBRTail (l : List Char) : Option (List Char) :=
  match matchCI "br".data l with
  | none => none
  | some rest =>
    match rest.dropWhile isWs with
    | '/' :: '>' :: tail => some tail
    | '>' :: tail => some tail
    | _ => none

/-- Match the tail of `<FONT[^>]*>` (case-insensitive), after the `<`. -/
def matchFontTail (l : List Char) : Option (List Char) :=
  match matchCI "font".data l with
  | none => none
  | some rest =>
    match rest.dropWhile (fun c => c ≠ '>') with
    | [] => none
    | _ :: tail => some tail

/-- Fuelled scanner for one `re.sub(pattern, repl, text)` pass over a tag
pattern anchored at `<`: `m` matches the pattern's tail after a `<` and
returns the remainder, `repl` is the replacement (not rescanned). -/
def subTagGo (m : List Char → Option (List Char)) (repl : List Char) :
    Nat → List Char → List Char
  | 0, l => l
  | _ + 1, [] => []
  | fuel + 1, c :: rest =>
    if c = '<' then
      match m rest with
      | some r => repl ++ subTagGo m repl fuel r
      | none => c :: subTagGo m repl fuel rest
    else c :: subTagGo m repl fuel rest

/-- `re.sub(r"<BR\s*/?>", "\n", text, flags=re.IGNORECASE)`. -/
def subBR (l : List Char) : List Char := subTagGo matchBRTail ['\n'] l.length l

/-- `re.sub(r"<P>", "\n", text, flags=re.IGNORECASE)`. -/
def subPopen (l : List Char) : List Char :=
  subTagGo (matchCI "p>".data) ['\n'] l.length l

/-- `re.sub(r"</P>", "", text, flags=re.IGNORECASE)`. -/
def subPclose (l : List Char) : List Char :=
  subTagGo (matchCI "/p>".data) [] l.length l

/-- `re.sub(r"<STRONG>|</STRONG>", "", text, flags=re.IGNORECASE)`. -/
def subStrong (l : List Char) : List Char :=
  subTagGo (fun r => (matchCI "strong>".data r).orElse
    (fun _ => matchCI "/strong>".data r)) [] l.length l

/-- `re.sub(r"<B>|</B>", "", text, flags=re.IGNORECASE)`. -/
def subB (l : List Char) : List Char :=
  subTagGo (fun r => (matchCI "b>".data r).orElse
    (fun _ => matchCI "/b>".data r)) [] l.length l

/-- `re.sub(r"<FONT[^>]*>|</FONT>", "", text, flags=re.IGNORECASE)`. -/
def subFont (l : List Char) : List Char :=
  subTagGo (fun r => (matchFontTail r).orElse
    (fun _ => matchCI "/font>".data r)) [] l.length l

/-- Split at the first `>`: `firstGt l = some (before, after)` when `l`
contains a `>`, with `before` the (necessarily `>`-free) prefix. -/
def firstGt : List Char → Option (List Char × List Char)
  | [] => none
  | c :: rest =>
    if c = '>' then some ([], rest)
    else match firstGt rest with
      | some (b, a) => some (c :: b, a)
      | none => none

/-- Fuelled scanner for `re.sub(r"<[^>]+>", "", text)`: at a `<`, the
leftmost match ends at the first following `>` and needs at least one
character in between; a `<` with no later `>` ends the scan. -/
def remTagsGo : Nat → List Char → List Char
  | 0, l => l
  | _ + 1, [] => []
  | fuel + 1, c :: rest =>
    if c = '<' then
      match firstGt rest with
      | some (b, a) => if b.isEmpty then c :: remTagsGo fuel rest else remTagsGo fuel a
      | none => c :: rest
    else c :: remTagsGo fuel rest

/-- `re.sub(r"<[^>]+>", "", text)`. -/
def remTags (l : List Char) : List Char := remTagsGo l.length l

/-- What remains of a whitespace run after its last `'\n'`. -/
def afterLastNl (run : List Char) : List Char :=
  (run.reverse.takeWhile (fun c => c ≠ '\n')).reverse

/-- Fuelled scanner for `re.sub(r"\n\s*\n+", "\n\n", text)`: at a newline
whose whitespace run holds a further newline, the greedy match extends
through the run's last newline and is replaced by a blank line. -/
def collapseGo : Nat → List Char → List Char
  | 0, l => l
  | _ + 1, [] => []
  | fuel + 1, c :: rest =>
    if c = '\n' then
      if (rest.takeWhile isWs).contains '\n' then
        '\n' :: '\n' ::
          collapseGo fuel (afterLastNl (rest.takeWhile isWs) ++ rest.dropWhile isWs)
      else c :: collapseGo fuel rest
    else c :: collapseGo fuel rest

/-- `re.sub(r"\n\s*\n+", "\n\n", text)`. -/
def collapseBlank (l : List Char) : List Char := collapseGo l.length l

/-- `clean_html_content` from the source: unescape entities, turn
`<BR>`/`<P>` into newlines, delete the other whitelisted tags, delete any
remaining tag-shaped substring, collapse blank lines and strip. -/
def clean_html_content (s : String) : String :=
  String.mk (stripL (collapseBlank (remTags (subFont (subB (subStrong
    (subPclose (subPopen (subBR (unescapeL s.data))))))))))

/-! ## The hierarchy parser `parse_subsections` -/

/-- A depth-2 node of `parse_subsections` (its `children` list in the
source is always empty and is dropped here). -/
structure ParaEntry where
  identifier : String
  text : String
  deriving Repr, DecidableEq

/-- A depth-1 node of `parse_subsections`. -/
structure SubEntry where
  identifier : String
  text : String
  children : List ParaEntry
  deriving Repr, DecidableEq

/-- Does the suffix start with `\([a-z]\)` ? -/
def letterMarkerAt : List Char → Bool
  | a :: b :: c :: _ => a = '(' && isLowerAZ b && c = ')'
  | _ => false

/-- Does the suffix start with `\([a-z]\)\s` ? -/
def letterMarkerWsAt : List Char → Bool
  | a :: b :: c :: d :: _ => a = '(' && isLowerAZ b && c = ')' && isWs d
  | _ => false

/-- Does the suffix start with `\(\d+\)` ? -/
def numMarkerAt : List Char → Bool
  | a :: rest =>
    a = '(' && !(rest.takeWhile isDigitC).isEmpty &&
      (rest.dropWhile isDigitC).head? = some ')'
  | [] => false

/-- Does the suffix start with `\(\d+\)\s` ? -/
def numMarkerWsAt : List Char → Bool
  | a :: rest =>
    a = '(' && !(rest.takeWhile isDigitC).isEmpty &&
      (match rest.dropWhile isDigitC with
       | ')' :: w :: _ => isWs w
       | _ => false)
  | [] => false

/-- Zero-width lookahead split, Python `re.split(r"(?=...)", text)`:
a part boundary sits immediately before every position where `p` holds
(a match at position 0 yields a leading empty part). -/
def splitLAGo (p : List Char → Bool) : List Char → List Char → List (List Char)
  | [], acc => [acc.reverse]
  | c :: rest, acc =>
    if p (c :: rest) then acc.reverse :: splitLAGo p rest [c]
    else splitLAGo p rest (c :: acc)

/-- `re.split` on a lookahead pattern decided by `p`. -/
def splitLA (p : List Char → Bool) (l : List Char) : List (List Char) :=
  splitLAGo p l []

/-- Index of the first suffix position where `p` holds (`re.search`
giving `match.start()`). -/
def findMarkIdx (p : List Char → Bool) : List Char → Option Nat
  | [] => none
  | c :: rest =>
    if p (c :: rest) then some 0 else (findMarkIdx p rest).map (· + 1)

/-- `re.match(r"\(([a-z])\)\s*", part)`: the letter and the text after the
marker and its trailing whitespace. -/
def matchLetterHead : List Char → Option (Char × List Char)
  | '(' :: c :: ')' :: rest =>
    if isLowerAZ c then some (c, rest.dropWhile isWs) else none
  | _ => none

/-- `re.match(r"\((\d+)\)\s*", part)`: the digits and the text after the
marker and its trailing whitespace. -/
def matchNumHead : List Char → Option (List Char × List Char)
  | '(' :: rest =>
    if (rest.takeWhile isDigitC).isEmpty then none
    else match rest.dropWhile isDigitC with
      | ')' :: rest2 => some (rest.takeWhile isDigitC, rest2.dropWhile isWs)
      | _ => none
  | _ => none

/-- The numbered-children loop of `parse_subsections`. -/
def parseNumChildren (remaining : List Char) : List ParaEntry :=
  ((splitLA numMarkerWsAt remaining).drop 1).filterMap fun num_part =>
    match matchNumHead num_part with
    | none => none
    | some (ds, afterWs) =>
      let t0 := stripL afterWs
      let t1 := match findMarkIdx (fun s => letterMarkerAt s || numMarkerAt s) t0 with
        | some i => stripL (t0.take i)
        | none => t0
      some { identifier := String.mk ds, text := String.mk (t1.take 2000) }

/-- One iteration of the depth-1 loop of `parse_subsections`. -/
def parseOneSub (part : List Char) : Option SubEntry :=
  match matchLetterHead part with
  | none => none
  | some (idc, content) =>
    let pr := match findMarkIdx numMarkerAt content with
      | some i => (stripL (content.take i), content.drop i)
      | none => (stripL content, ([] : List Char))
    let children := if pr.2.isEmpty then [] else parseNumChildren pr.2
    let direct1 := match findMarkIdx letterMarkerAt pr.1 with
      | some i => stripL (pr.1.take i)
      | none => pr.1
    some { identifier := String.mk [idc], text := String.mk (direct1.take 2000),
           children := children }

/-- `parse_subsections` from the source. -/
def parse_subsections (text : String) : List SubEntry :=
  ((splitLA letterMarkerWsAt text.data).drop 1).filterMap parseOneSub

/-! ## `extract_section_number` -/

/-- Match `\d+-\d+-\d+(?:\.\d+)?` anchored at the head, returning the
matched characters (greedy digit runs; the optional decimal part is taken
exactly when a `.` with at least one digit follows). -/
def patAtHead (l : List Char) : Option (List Char) :=
  if (l.takeWhile isDigitC).isEmpty then none
  else match l.dropWhile isDigitC with
    | '-' :: r1 =>
      if (r1.takeWhile isDigitC).isEmpty then none
      else match r1.dropWhile isDigitC with
        | '-' :: r2 =>
          if (r2.takeWhile isDigitC).isEmpty then none
          else
            let core := l.takeWhile isDigitC ++ '-' :: r1.takeWhile isDigitC ++
              '-' :: r2.takeWhile isDigitC
            match r2.dropWhile isDigitC with
            | '.' :: r3 =>
              if (r3.takeWhile isDigitC).isEmpty then some core
              else some (core ++ '.' :: r3.takeWhile isDigitC)
            | _ => some core
        | _ => none
    | _ => none

/-- Leftmost match of `\d+-\d+-\d+(?:\.\d+)?` (`re.search`). -/
def findPat : List Char → Option (List Char)
  | [] => none
  | c :: rest =>
    match patAtHead (c :: rest) with
    | some m => some m
    | none => findPat rest

/-- Python `caption.replace(" ", "-").replace(".", "-")`: both patterns
are single characters, so the two passes are character maps. -/
def sanitizeCaption (l : List Char) : List Char :=
  (l.map (fun c => if c = ' ' then '-' else c)).map
    (fun c => if c = '.' then '-' else c)

/-- `extract_section_number` from the source. -/
def extract_section_number (caption : String) : String :=
  match findPat caption.data with
  | some m => String.mk m
  | none => String.mk (sanitizeCaption caption.data)

/-- `create_eid` from the source. -/
def create_eid (section_num : String) : String := "sec_" ++ section_num

-- Concrete end-to-end checks of the embedding on small inputs.
example : clean_html_content "a &lt;b&gt; c" = "a  c" := by decide
example : clean_html_content "x<P>y</P><B>z</B>" = "x\nyz" := by decide
example : clean_html_content "a\n \n\nb" = "a\n\nb" := by decide
example : clean_html_content "  <SPAN>q</SPAN>  " = "q" := by decide
example : extract_section_number "48-1-2 Definitions" = "48-1-2" := by decide
example : extract_section_number "Front matter. Sec" = "Front-matter--Sec" := by decide
example : parse_subsections "(a) First. (1) One. (2) Two. (b) Second." =
    [{ identifier := "a", text := "First.",
       children := [{ identifier := "1", text := "One." },
                    { identifier := "2", text := "Two." }] },
     { identifier := "b", text := "Second.", children := [] }] := by decide

/-! ## The document tree builder -/

/-- Functional model of an `xml.etree.ElementTree` element: tag name,
attributes in the order they are set, optional text, children in the
order they are attached. -/
inductive XElem where
  | mk (name : String) (attrs : List (String × String))
       (text : Option String) (children : List XElem)
  deriving Repr

def XElem.name : XElem → String
  | .mk n _ _ _ => n

def XElem.attrs : XElem → List (String × String)
  | .mk _ a _ _ => a

def XElem.text : XElem → Option String
  | .mk _ _ t _ => t

def XElem.children : XElem → List XElem
  | .mk _ _ _ c => c

/-- Attribute lookup (first binding wins, as for `Element.get`). -/
def XElem.attr (e : XElem) (k : String) : Option String :=
  (e.attrs.find? (fun p => p.1 == k)).map Prod.snd

/-- A section record as built by `parse_source_xml` (the dict with keys
`section_number`, `title`, `text`, `history`, `chapter`, `subsections`). -/
structure Record where
  section_number : String
  title : String
  text : String
  history : String
  chapter : String
  subsections : List SubEntry
  deriving Repr, DecidableEq

/-- `add_subsection_element` from the source, returning the subsection
element that the code attaches to its parent. -/
def add_subsection_element (sub : SubEntry) (section_num : String) : XElem :=
  XElem.mk "subsection" [("eId", "sec_" ++ section_num ++ "__subsec_" ++ sub.identifier)] none
    ([XElem.mk "num" [] (some ("(" ++ sub.identifier ++ ")")) [],
      XElem.mk "content" [] none [XElem.mk "p" [] (some sub.text) []]]
     ++ sub.children.map (fun child =>
        XElem.mk "paragraph"
          [("eId", "sec_" ++ section_num ++ "__subsec_" ++ sub.identifier
              ++ "__para_" ++ child.identifier)] none
          [XElem.mk "num" [] (some ("(" ++ child.identifier ++ ")")) [],
           XElem.mk "content" [] none [XElem.mk "p" [] (some child.text) []]]))

/-- The intro split `re.match(r"^(.+?)(?=\([a-z]\))", text, re.DOTALL)`:
the shortest nonempty prefix after which a parenthesised lowercase letter
starts.  Returns the matched prefix (`group(1)`). -/
def introCut (l : List Char) : Option (List Char) :=
  match l with
  | [] => none
  | c :: rest => (findMarkIdx letterMarkerAt rest).map (fun i => c :: rest.take i)

/-- `add_section_element` from the source, returning the section element
that the code attaches to its chapter. -/
def add_section_element (s : Record) : XElem :=
  XElem.mk "section" [("eId", create_eid s.section_number)] none
    (XElem.mk "num" [] (some s.section_number) [] ::
     (if s.title = "" then [] else [XElem.mk "heading" [] (some s.title) []])
     ++ (if s.subsections.isEmpty then
           [XElem.mk "content" [] none
             [XElem.mk "p" [] (some (takeN s.text 5000)) []]]
         else
           (match introCut s.text.data with
            | some pfx => [XElem.mk "intro" [] none
                [XElem.mk "p" [] (some (String.mk ((stripL pfx).take 500))) []]]
            | none => [])
           ++ s.subsections.map (fun sub => add_subsection_element sub s.section_number))
     ++ (if s.history = "" then [] else
          [XElem.mk "notes" [] none
            [XElem.mk "note" [("type", "history")] none
              [XElem.mk "p" [] (some (takeN s.history 1000)) []]]]))

/-- One step of the `chapters` dict construction: append to the existing
key's list, else add a new key at the end (Python dicts preserve
insertion order). -/
def upsert (m : List (String × List Record)) (k : String) (v : Record) :
    List (String × List Record) :=
  match m with
  | [] => [(k, [v])]
  | (k', vs) :: rest =>
    if k' = k then (k', vs ++ [v]) :: rest else (k', vs) :: upsert rest k v

/-- The `chapters` grouping dict of `create_akn_document`. -/
def groupByChapter (secs : List Record) : List (String × List Record) :=
  secs.foldl (fun m s => upsert m s.chapter s) []

/-- Comparison used by `sorted(chapters.items())`: tuples compare by
their first component; the keys are pairwise distinct so the comparison
never reaches the values. -/
def keyLe (a b : String × List Record) : Prop := a.1 ≤ b.1

instance : DecidableRel keyLe := fun a b => inferInstanceAs (Decidable (a.1 ≤ b.1))

instance : IsTotal (String × List Record) keyLe := ⟨fun a b => le_total a.1 b.1⟩

instance : IsTrans (String × List Record) keyLe :=
  ⟨fun _ _ _ h₁ h₂ => le_trans h₁ h₂⟩

/-- The chapter groups in emission order: sorted by key, with the empty
chapter key dropped by the loop's `continue`. -/
def chapterList (secs : List Record) : List (String × List Record) :=
  (List.insertionSort keyLe (groupByChapter secs)).filter (fun kg => kg.1 != "")

/-- One chapter element.  Its optional heading comes from
`chapter_sections[0].get("chapter_title", "")`; the records built by
`parse_source_xml` carry no `chapter_title` key, so the getter yields
`""` and the heading is never emitted. -/
def chapterElem (title_num : Nat) (chapter_num : String) (chSecs : List Record) : XElem :=
  XElem.mk "chapter" [("eId", "chp_" ++ toString title_num ++ "-" ++ chapter_num)] none
    (XElem.mk "num" [] (some ("Chapter " ++ chapter_num)) [] ::
     chSecs.map add_section_element)

/-- The `meta` element of `create_akn_document`.  `today` models the
ambient `date.today().isoformat()` read on line 183 of the source. -/
def metaElem (title_num : Nat) (today : String) : XElem :=
  XElem.mk "meta" [] none
    [XElem.mk "identification" [("source", "#cosilico")] none
      [XElem.mk "FRBRWork" [] none
        [XElem.mk "FRBRthis" [("value", "/akn/us-ga/act/ocga/title-" ++ toString title_num)] none [],
         XElem.mk "FRBRuri" [("value", "/akn/us-ga/act/ocga/title-" ++ toString title_num)] none [],
         XElem.mk "FRBRdate" [("date", "2018-12-01"), ("name", "publication")] none [],
         XElem.mk "FRBRauthor" [("href", "#ga-legislature")] none [],
         XElem.mk "FRBRcountry" [("value", "us-ga")] none [],
         XElem.mk "FRBRnumber" [("value", toString title_num)] none []],
       XElem.mk "FRBRExpression" [] none
        [XElem.mk "FRBRthis" [("value", "/akn/us-ga/act/ocga/title-" ++ toString title_num ++ "/eng@2018-12-01")] none [],
         XElem.mk "FRBRuri" [("value", "/akn/us-ga/act/ocga/title-" ++ toString title_num ++ "/eng@2018-12-01")] none [],
         XElem.mk "FRBRdate" [("date", "2018-12-01"), ("name", "publication")] none [],
         XElem.mk "FRBRauthor" [("href", "#cosilico")] none [],
         XElem.mk "FRBRlanguage" [("language", "eng")] none []],
       XElem.mk "FRBRManifestation" [] none
        [XElem.mk "FRBRthis" [("value", "/akn/us-ga/act/ocga/title-" ++ toString title_num ++ "/eng@2018-12-01/main.xml")] none [],
         XElem.mk "FRBRuri" [("value", "/akn/us-ga/act/ocga/title-" ++ toString title_num ++ "/eng@2018-12-01/main.xml")] none [],
         XElem.mk "FRBRdate" [("date", today), ("name", "generation")] none [],
         XElem.mk "FRBRauthor" [("href", "#cosilico")] none []]],
     XElem.mk "publication"
       [("date", "2018-12-01"), ("name", "Official Code of Georgia Annotated"),
        ("showAs", "OCGA")] none [],
     XElem.mk "references" [] none
      [XElem.mk "TLCOrganization"
        [("eId", "ga-legislature"), ("href", "/ontology/organization/us-ga/legislature"),
         ("showAs", "Georgia General Assembly")] none [],
       XElem.mk "TLCOrganization"
        [("eId", "cosilico"), ("href", "https://cosilico.ai"), ("showAs", "Cosilico")] none []]]

/-- The `body` element of `create_akn_document`. -/
def bodyElem (title_num : Nat) (secs : List Record) : XElem :=
  XElem.mk "body" [] none
    ((chapterList secs).map (fun kg => chapterElem title_num kg.1 kg.2))

/-- `create_akn_document` from the source; `today` models the ambient
`date.today().isoformat()` used for the manifestation generation date. -/
def create_akn_document (title_num : Nat) (sections : List Record) (today : String) : XElem :=
  XElem.mk "akomaNtoso" [] none
    [XElem.mk "act" [] none [metaElem title_num today, bodyElem title_num sections]]

/-! ## The source record extractor `parse_source_xml` -/

/-- One `<Index>` entry of the archive XML: its `Level` attribute and the
text of its optional `Caption`, `Description`, `Content` and
`RevisionHistory` children (`none` models both a missing child and a
child with no text). -/
structure SrcEntry where
  level : String
  caption : Option String
  description : Option String
  content : Option String
  history : Option String
  deriving Repr

/-- Does the suffix start with a `\d+-\d+-\d+` match? -/
def tripleAtHead (l : List Char) : Bool :=
  !(l.takeWhile isDigitC).isEmpty &&
    (match l.dropWhile isDigitC with
     | '-' :: r1 =>
       !(r1.takeWhile isDigitC).isEmpty &&
         (match r1.dropWhile isDigitC with
          | '-' :: r2 => !(r2.takeWhile isDigitC).isEmpty
          | _ => false)
     | _ => false)

/-- `re.search(r"\d+-\d+-\d+", caption_text)` viewed as a test. -/
def containsTriple : List Char → Bool
  | [] => false
  | c :: rest => tripleAtHead (c :: rest) || containsTriple rest

/-- `section_number.split("-")` (Python `str.split` with a one-character
separator). -/
def splitDashGo : List Char → List Char → List (List Char)
  | [], acc => [acc.reverse]
  | c :: rest, acc =>
    if c = '-' then acc.reverse :: splitDashGo rest []
    else splitDashGo rest (c :: acc)

def splitDash (l : List Char) : List (List Char) := splitDashGo l []

/-- `parts[1] if len(parts) > 1 else ""` on the dash-split section number. -/
def chapterOf (section_number : String) : String :=
  match splitDash section_number.data with
  | _ :: p1 :: _ => String.mk p1
  | _ => ""

/-- `parse_source_xml` from the source, over the flat list of `<Index>`
entries that `root.iter("Index")` yields in document order. -/
def parse_source_xml (entries : List SrcEntry) : List Record :=
  entries.filterMap fun e =>
    if e.level = "3" || e.level = "4" then
      match e.caption with
      | none => none
      | some cap =>
        if cap = "" then none
        else
          if containsTriple (stripL cap.data) then
            let section_number := extract_section_number (String.mk (stripL cap.data))
            let content := match e.content with
              | some c => if c = "" then "" else clean_html_content c
              | none => ""
            some { section_number := section_number,
                   title := (match e.description with
                     | some d => String.mk (stripL d.data)
                     | none => ""),
                   text := content,
                   history := (match e.history with
                     | some h => String.mk (stripL h.data)
                     | none => ""),
                   chapter := chapterOf section_number,
                   subsections := parse_subsections content }
          else none
    else none

example :
    (parse_source_xml [{ level := "3", caption := some "48-1-2 Definitions",
                         description := some "Definitions",
                         content := some "(a) Means this.",
                         history := none }]).map Record.chapter = ["1"] := by decide

/-! ## Claim C1 -/

/-- C1: on `"(a) First. (1) One. (2) Two. (b) Second."`,
`parse_subsections` returns exactly two depth-1 nodes in order: `a` with
direct text `"First."` and children `1 ↦ "One."`, `2 ↦ "Two."`, then `b`
with text `"Second."` and no children. -/
theorem C1_hierarchy_example :
    parse_subsections "(a) First. (1) One. (2) Two. (b) Second." =
      [{ identifier := "a", text := "First.",
         children := [{ identifier := "1", text := "One." },
                      { identifier := "2", text := "Two." }] },
       { identifier := "b", text := "Second.", children := [] }] := by
  decide

/-! ## Claim C2 -/

/-- The paragraph children of a subsection element and their `eId`s. -/
theorem para_filter_eids (eid numText pText : String) (cs : List ParaEntry) :
    ((([XElem.mk "num" [] (some numText) [],
        XElem.mk "content" [] none [XElem.mk "p" [] (some pText) []]] : List XElem)
      ++ cs.map (fun child => XElem.mk "paragraph"
          [("eId", eid ++ "__para_" ++ child.identifier)] none
          [XElem.mk "num" [] (some ("(" ++ child.identifier ++ ")")) [],
           XElem.mk "content" [] none [XElem.mk "p" [] (some child.text) []]])).filter
        (fun c => c.name == "paragraph")).map (fun c => c.attr "eId") =
      cs.map (fun child => some (eid ++ "__para_" ++ child.identifier)) := by
  induction cs with
  | nil => rfl
  | cons hd tl ih =>
    simpa [XElem.name, XElem.attr, XElem.attrs, List.filter] using ih

/-- C2: the tree builder derives identifiers structurally: the section
element's `eId` is `create_eid` of the section number (`"sec_" ++ s`),
each subsection's `eId` is the section's identifier extended with
`"__subsec_" ++ marker`, each paragraph's `eId` is its subsection's
identifier extended with `"__para_" ++ marker`; in particular section
`48-1-2` with subsection `a` yields `sec_48-1-2` and
`sec_48-1-2__subsec_a`. -/
theorem C2_identifier_derivation :
    ∀ (s : Record) (section_num : String) (sub : SubEntry),
      (add_section_element s).attr "eId" = some (create_eid s.section_number) ∧
      create_eid s.section_number = "sec_" ++ s.section_number ∧
      (add_subsection_element sub section_num).attr "eId" =
        some (create_eid section_num ++ "__subsec_" ++ sub.identifier) ∧
      ((add_subsection_element sub section_num).children.filter
          (fun c => c.name == "paragraph")).map (fun c => c.attr "eId") =
        sub.children.map (fun child =>
          some (create_eid section_num ++ "__subsec_" ++ sub.identifier
            ++ "__para_" ++ child.identifier)) ∧
      create_eid "48-1-2" = "sec_48-1-2" ∧
      (add_subsection_element { identifier := "a", text := "x", children := [] }
          "48-1-2").attr "eId" = some "sec_48-1-2__subsec_a" := by
  intro s section_num sub
  refine ⟨?_, rfl, ?_, ?_, rfl, by decide⟩
  · simp [add_section_element, XElem.attr, XElem.attrs]
  · simp [add_subsection_element, XElem.attr, XElem.attrs, create_eid,
      String.append_assoc]
  · have h := para_filter_eids ("sec_" ++ section_num ++ "__subsec_" ++ sub.identifier)
      ("(" ++ sub.identifier ++ ")") sub.text sub.children
    simpa [add_subsection_element, XElem.children, create_eid] using h

/-! ## Claim C3 -/

/-- Replace the manifestation generation date of a document built by
`create_akn_document`; on any other shape, the identity. -/
def setManifDate (d : String) : XElem → XElem
  | XElem.mk "akomaNtoso" a0 t0
      [XElem.mk "act" a1 t1
        [XElem.mk "meta" a2 t2
          (XElem.mk "identification" a3 t3
            [work, expr,
             XElem.mk "FRBRManifestation" a4 t4
               [mthis, muri, XElem.mk "FRBRdate" ((dk, _) :: drest) t5 c5, mauthor]]
           :: metaRest),
         body]] =>
    XElem.mk "akomaNtoso" a0 t0
      [XElem.mk "act" a1 t1
        [XElem.mk "meta" a2 t2
          (XElem.mk "identification" a3 t3
            [work, expr,
             XElem.mk "FRBRManifestation" a4 t4
               [mthis, muri, XElem.mk "FRBRdate" ((dk, d) :: drest) t5 c5, mauthor]]
           :: metaRest),
         body]]
  | e => e

/-- The manifestation generation date of a document built by
`create_akn_document`. -/
def manifGenDate : XElem → Option String
  | XElem.mk _ _ _ [XElem.mk _ _ _
      [XElem.mk _ _ _ (XElem.mk _ _ _ [_, _, XElem.mk _ _ _ [_, _, dateEl, _]] :: _), _]] =>
    dateEl.attr "date"
  | _ => none

/-- C3 counterexample: the builder is not a pure function of the title
number and section records alone — the manifestation block's generation
date is read from the ambient current date (`date.today()`, source line
183), so two runs on identical inputs at different dates differ. -/
theorem C3_counterexample :
    create_akn_document 5 [] "2020-01-01" ≠ create_akn_document 5 [] "2020-01-02" := by
  intro h
  exact absurd (congrArg manifGenDate h) (by decide)

/-- C3 (amended): the output tree is a pure function of the title number,
the section records and the current date, and the current date influences
nothing but the manifestation generation date: any two runs on the same
title and sections are equal after replacing that one attribute value. -/
theorem C3_pure_up_to_generation_date :
    ∀ (title_num : Nat) (sections : List Record) (d₁ d₂ : String),
      create_akn_document title_num sections d₁ =
        setManifDate d₁ (create_akn_document title_num sections d₂) := by
  intro title_num sections d₁ d₂
  rfl

/-! ## Observers on built elements, shared by the truncation and intro
claims -/

@[simp] theorem XElem.name_mk (n a t c) : (XElem.mk n a t c).name = n := rfl

@[simp] theorem XElem.attrs_mk (n a t c) : (XElem.mk n a t c).attrs = a := rfl

@[simp] theorem XElem.text_mk (n a t c) : (XElem.mk n a t c).text = t := rfl

@[simp] theorem XElem.children_mk (n a t c) : (XElem.mk n a t c).children = c := rfl

/-- Texts of the `<p>` children of an element. -/
def pTexts (e : XElem) : List String :=
  (e.children.filter (fun c => c.name == "p")).filterMap XElem.text

/-- Texts inside the `<intro>` children of an element. -/
def introTexts (e : XElem) : List String :=
  (e.children.filter (fun c => c.name == "intro")).flatMap pTexts

/-- Texts inside the `<content>` children of an element. -/
def contentTexts (e : XElem) : List String :=
  (e.children.filter (fun c => c.name == "content")).flatMap pTexts

/-- Texts inside the `<notes>` children of an element. -/
def notesTexts (e : XElem) : List String :=
  (e.children.filter (fun c => c.name == "notes")).flatMap
    (fun n => (n.children.filter (fun c => c.name == "note")).flatMap pTexts)

/-- Content texts of the `<subsection>` children of an element. -/
def subsecContentTexts (e : XElem) : List String :=
  (e.children.filter (fun c => c.name == "subsection")).flatMap contentTexts

/-- Content texts of the `<paragraph>` grandchildren through
`<subsection>` children. -/
def subsecParaTexts (e : XElem) : List String :=
  (e.children.filter (fun c => c.name == "subsection")).flatMap
    (fun sb => (sb.children.filter (fun c => c.name == "paragraph")).flatMap contentTexts)

theorem filter_map_of_neg {α : Type} (f : α → XElem) (p : XElem → Bool)
    (l : List α) (h : ∀ a, p (f a) = false) : (l.map f).filter p = [] := by
  induction l with
  | nil => rfl
  | cons x xs ih => simp [List.filter, h, ih]

theorem filter_map_of_pos {α : Type} (f : α → XElem) (p : XElem → Bool)
    (l : List α) (h : ∀ a, p (f a) = true) : (l.map f).filter p = l.map f := by
  induction l with
  | nil => rfl
  | cons x xs ih => simp [List.filter, h, ih]

@[simp] theorem filter_subsecs_intro (l : List SubEntry) (sn : String) :
    (l.map (fun sub => add_subsection_element sub sn)).filter
      (fun c => c.name == "intro") = [] :=
  filter_map_of_neg _ _ _ (fun _ => rfl)

@[simp] theorem filter_subsecs_content (l : List SubEntry) (sn : String) :
    (l.map (fun sub => add_subsection_element sub sn)).filter
      (fun c => c.name == "content") = [] :=
  filter_map_of_neg _ _ _ (fun _ => rfl)

@[simp] theorem filter_subsecs_notes (l : List SubEntry) (sn : String) :
    (l.map (fun sub => add_subsection_element sub sn)).filter
      (fun c => c.name == "notes") = [] :=
  filter_map_of_neg _ _ _ (fun _ => rfl)

@[simp] theorem filter_subsecs_subsection (l : List SubEntry) (sn : String) :
    (l.map (fun sub => add_subsection_element sub sn)).filter
      (fun c => c.name == "subsection") = l.map (fun sub => add_subsection_element sub sn) :=
  filter_map_of_pos _ _ _ (fun _ => rfl)

theorem contentTexts_subsec (sub : SubEntry) (sn : String) :
    contentTexts (add_subsection_element sub sn) = [sub.text] := by
  simp only [add_subsection_element, contentTexts, XElem.children_mk,
    List.filter_append, List.filter_cons]
  rw [filter_map_of_neg _ _ _ (fun _ => rfl)]
  simp [pTexts, List.filter]

theorem flatMap_paras (pre : String) (cs : List ParaEntry) :
    (cs.map (fun child => XElem.mk "paragraph"
        [("eId", pre ++ "__para_" ++ child.identifier)] none
        [XElem.mk "num" [] (some ("(" ++ child.identifier ++ ")")) [],
         XElem.mk "content" [] none
           [XElem.mk "p" [] (some child.text) []]])).flatMap contentTexts =
      cs.map ParaEntry.text := by
  induction cs with
  | nil => rfl
  | cons hd tl ih =>
    simp only [List.map_cons, List.flatMap_cons, ih]
    simp [contentTexts, pTexts, List.filter]

theorem paraTexts_subsec (sub : SubEntry) (sn : String) :
    ((add_subsection_element sub sn).children.filter
      (fun c => c.name == "paragraph")).flatMap contentTexts =
    sub.children.map ParaEntry.text := by
  simp only [add_subsection_element, XElem.children_mk, List.filter_append,
    List.filter_cons]
  rw [filter_map_of_pos _ _ _ (fun _ => rfl)]
  exact flatMap_paras ("sec_" ++ sn ++ "__subsec_" ++ sub.identifier) sub.children

theorem introTexts_section (s : Record) :
    introTexts (add_section_element s) =
      (if s.subsections.isEmpty then [] else
        match introCut s.text.data with
        | some pfx => [String.mk ((stripL pfx).take 500)]
        | none => []) := by
  by_cases he : s.subsections.isEmpty <;> by_cases ht : s.title = "" <;>
    by_cases hh : s.history = "" <;> cases hic : introCut s.text.data <;>
    simp [add_section_element, introTexts, pTexts, he, ht, hh, hic,
      List.filter_append, List.filter]

theorem contentTexts_section (s : Record) :
    contentTexts (add_section_element s) =
      (if s.subsections.isEmpty then [takeN s.text 5000] else []) := by
  by_cases he : s.subsections.isEmpty <;> by_cases ht : s.title = "" <;>
    by_cases hh : s.history = "" <;> cases hic : introCut s.text.data <;>
    simp [add_section_element, contentTexts, pTexts, he, ht, hh, hic,
      List.filter_append, List.filter]

theorem notesTexts_section (s : Record) :
    notesTexts (add_section_element s) =
      (if s.history = "" then [] else [takeN s.history 1000]) := by
  by_cases he : s.subsections.isEmpty <;> by_cases ht : s.title = "" <;>
    by_cases hh : s.history = "" <;> cases hic : introCut s.text.data <;>
    simp [add_section_element, notesTexts, pTexts, he, ht, hh, hic,
      List.filter_append, List.filter]

theorem flatMap_subsecs_content (sn : String) (l : List SubEntry) :
    (l.map (fun sub => add_subsection_element sub sn)).flatMap contentTexts =
      l.map SubEntry.text := by
  induction l with
  | nil => rfl
  | cons hd tl ih => simp [List.flatMap_cons, contentTexts_subsec, ih]

theorem flatMap_subsecs_para (sn : String) (l : List SubEntry) :
    (l.map (fun sub => add_subsection_element sub sn)).flatMap
      (fun sb => (sb.children.filter (fun c => c.name == "paragraph")).flatMap
        contentTexts) =
      l.flatMap (fun sub => sub.children.map ParaEntry.text) := by
  induction l with
  | nil => rfl
  | cons hd tl ih => simp [List.flatMap_cons, paraTexts_subsec, ih]

theorem subsecContentTexts_section (s : Record) :
    subsecContentTexts (add_section_element s) =
      (if s.subsections.isEmpty then [] else s.subsections.map SubEntry.text) := by
  by_cases he : s.subsections.isEmpty <;> by_cases ht : s.title = "" <;>
    by_cases hh : s.history = "" <;> cases hic : introCut s.text.data <;>
    simp [add_section_element, subsecContentTexts, he, ht, hh, hic,
      List.filter_append, List.filter, flatMap_subsecs_content]

theorem subsecParaTexts_section (s : Record) :
    subsecParaTexts (add_section_element s) =
      (if s.subsections.isEmpty then []
       else s.subsections.flatMap (fun sub => sub.children.map ParaEntry.text)) := by
  by_cases he : s.subsections.isEmpty <;> by_cases ht : s.title = "" <;>
    by_cases hh : s.history = "" <;> cases hic : introCut s.text.data <;>
    simp [add_section_element, subsecParaTexts, he, ht, hh, hic,
      List.filter_append, List.filter, flatMap_subsecs_para]

/-! ## Claim C6 -/

theorem parseNumChildren_bounds (remaining : List Char) :
    ∀ c ∈ parseNumChildren remaining, c.text.length ≤ 2000 := by
  intro c hc
  unfold parseNumChildren at hc
  rw [List.mem_filterMap] at hc
  obtain ⟨np, -, hnp⟩ := hc
  cases hm : matchNumHead np with
  | none => simp [hm] at hnp
  | some pr =>
    simp only [hm] at hnp
    injection hnp with h2
    subst h2
    exact List.length_take_le _ _

theorem parseOneSub_bounds (part : List Char) (sub : SubEntry)
    (h : parseOneSub part = some sub) :
    sub.text.length ≤ 2000 ∧ ∀ c ∈ sub.children, c.text.length ≤ 2000 := by
  unfold parseOneSub at h
  cases hm : matchLetterHead part with
  | none => simp [hm] at h
  | some pr =>
    simp only [hm] at h
    injection h with h2
    subst h2
    refine ⟨List.length_take_le _ _, ?_⟩
    intro c hc
    simp only at hc
    split at hc
    · cases hc
    · exact parseNumChildren_bounds _ c hc

theorem parse_subsections_bounds (t : String) :
    ∀ sub ∈ parse_subsections t, sub.text.length ≤ 2000 ∧
      ∀ c ∈ sub.children, c.text.length ≤ 2000 := by
  intro sub hsub
  unfold parse_subsections at hsub
  rw [List.mem_filterMap] at hsub
  obtain ⟨part, -, hp⟩ := hsub
  exact parseOneSub_bounds part sub hp

/-- C6: every bounded text field respects its documented maximum: depth-1
direct text and depth-2 paragraph text are cut to 2000 characters by the
parser, and in the built section element intro text is cut to 500, a flat
content block to 5000 and a history note to 1000, for any input sizes
(the record's `subsections` being the parser's output on its body text,
as `parse_source_xml` always arranges). -/
theorem C6_truncation_bounds :
    ∀ (t : String) (s : Record), s.subsections = parse_subsections s.text →
      (∀ sub ∈ parse_subsections t, sub.text.length ≤ 2000 ∧
        ∀ c ∈ sub.children, c.text.length ≤ 2000) ∧
      (∀ x ∈ introTexts (add_section_element s), x.length ≤ 500) ∧
      (∀ x ∈ contentTexts (add_section_element s), x.length ≤ 5000) ∧
      (∀ x ∈ notesTexts (add_section_element s), x.length ≤ 1000) ∧
      (∀ x ∈ subsecContentTexts (add_section_element s), x.length ≤ 2000) ∧
      (∀ x ∈ subsecParaTexts (add_section_element s), x.length ≤ 2000) := by
  intro t s hs
  refine ⟨parse_subsections_bounds t, ?_, ?_, ?_, ?_, ?_⟩
  · intro x hx
    rw [introTexts_section] at hx
    split at hx
    · cases hx
    · split at hx
      · rw [List.mem_singleton] at hx
        subst hx
        exact List.length_take_le _ _
      · cases hx
  · intro x hx
    rw [contentTexts_section] at hx
    split at hx
    · rw [List.mem_singleton] at hx
      subst hx
      exact List.length_take_le _ _
    · cases hx
  · intro x hx
    rw [notesTexts_section] at hx
    split at hx
    · cases hx
    · rw [List.mem_singleton] at hx
      subst hx
      exact List.length_take_le _ _
  · intro x hx
    rw [subsecContentTexts_section] at hx
    split at hx
    · cases hx
    · rw [List.mem_map] at hx
      obtain ⟨sub, hsub, rfl⟩ := hx
      rw [hs] at hsub
      exact (parse_subsections_bounds s.text sub hsub).1
  · intro x hx
    rw [subsecParaTexts_section] at hx
    split at hx
    · cases hx
    · rw [List.mem_flatMap] at hx
      obtain ⟨sub, hsub, hx⟩ := hx
      rw [List.mem_map] at hx
      obtain ⟨c, hc, rfl⟩ := hx
      rw [hs] at hsub
      exact (parse_subsections_bounds s.text sub hsub).2 c hc

/-- Witness for C6 at a concrete record. -/
theorem C6_truncation_bounds_witness :
    (∀ sub ∈ parse_subsections "(a) Hi", sub.text.length ≤ 2000 ∧
      ∀ c ∈ sub.children, c.text.length ≤ 2000) ∧
    (∀ x ∈ introTexts (add_section_element
      { section_number := "1-1-1", title := "T", text := "(a) Hi", history := "h",
        chapter := "1", subsections := parse_subsections "(a) Hi" }), x.length ≤ 500) ∧
    (∀ x ∈ contentTexts (add_section_element
      { section_number := "1-1-1", title := "T", text := "(a) Hi", history := "h",
        chapter := "1", subsections := parse_subsections "(a) Hi" }), x.length ≤ 5000) ∧
    (∀ x ∈ notesTexts (add_section_element
      { section_number := "1-1-1", title := "T", text := "(a) Hi", history := "h",
        chapter := "1", subsections := parse_subsections "(a) Hi" }), x.length ≤ 1000) ∧
    (∀ x ∈ subsecContentTexts (add_section_element
      { section_number := "1-1-1", title := "T", text := "(a) Hi", history := "h",
        chapter := "1", subsections := parse_subsections "(a) Hi" }), x.length ≤ 2000) ∧
    (∀ x ∈ subsecParaTexts (add_section_element
      { section_number := "1-1-1", title := "T", text := "(a) Hi", history := "h",
        chapter := "1", subsections := parse_subsections "(a) Hi" }), x.length ≤ 2000) :=
  C6_truncation_bounds "(a) Hi"
    { section_number := "1-1-1", title := "T", text := "(a) Hi", history := "h",
      chapter := "1", subsections := parse_subsections "(a) Hi" } rfl

/-! ## Claim C7 -/

theorem patAtHead_nil : patAtHead [] = none := rfl

theorem findPat_of_least (l : List Char) (i : Nat) (m : List Char)
    (h : patAtHead (l.drop i) = some m)
    (hmin : ∀ j, j < i → patAtHead (l.drop j) = none) :
    findPat l = some m := by
  induction l generalizing i with
  | nil => rw [List.drop_nil, patAtHead_nil] at h; cases h
  | cons c rest ih =>
    cases i with
    | zero =>
      rw [List.drop_zero] at h
      unfold findPat
      rw [h]
    | succ i' =>
      have h0 := hmin 0 (Nat.succ_pos i')
      rw [List.drop_zero] at h0
      unfold findPat
      rw [h0]
      exact ih i' (by simpa using h)
        (fun j hj => by simpa using hmin (j + 1) (Nat.succ_lt_succ hj))

theorem findPat_eq_none_iff (l : List Char) :
    findPat l = none ↔ ∀ i, patAtHead (l.drop i) = none := by
  induction l with
  | nil =>
    simp [findPat, List.drop_nil, patAtHead_nil]
  | cons c rest ih =>
    constructor
    · intro h i
      unfold findPat at h
      cases h0 : patAtHead (c :: rest) with
      | some m => rw [h0] at h; cases h
      | none =>
        rw [h0] at h
        cases i with
        | zero => simpa using h0
        | succ j => simpa using (ih.mp h) j
    · intro h
      have h0 := h 0
      rw [List.drop_zero] at h0
      unfold findPat
      rw [h0]
      exact ih.mpr (fun i => by simpa using h (i + 1))

/-- C7: `extract_section_number` returns the leftmost match of
`\d+-\d+-\d+(\.\d+)?` when the caption has one (in particular
`"48-1-2 Definitions"` gives `"48-1-2"`), and otherwise the caption with
every space and every period replaced by a hyphen. -/
theorem C7_extract_section_number :
    ∀ (caption : String),
      (∀ i m, patAtHead (caption.data.drop i) = some m →
        (∀ j, j < i → patAtHead (caption.data.drop j) = none) →
        extract_section_number caption = String.mk m) ∧
      ((∀ i, patAtHead (caption.data.drop i) = none) →
        extract_section_number caption = String.mk (sanitizeCaption caption.data)) ∧
      extract_section_number "48-1-2 Definitions" = "48-1-2" := by
  intro caption
  refine ⟨?_, ?_, by decide⟩
  · intro i m h hmin
    unfold extract_section_number
    rw [findPat_of_least caption.data i m h hmin]
  · intro h
    unfold extract_section_number
    rw [(findPat_eq_none_iff caption.data).mpr h]

/-- Witness for C7: the match branch at `"48-1-2 Definitions"` and the
fallback branch at `"Chapter one."`. -/
theorem C7_extract_section_number_witness :
    extract_section_number "48-1-2 Definitions" = String.mk "48-1-2".data ∧
    extract_section_number "Chapter one." =
      String.mk (sanitizeCaption "Chapter one.".data) := by
  constructor
  · exact (C7_extract_section_number "48-1-2 Definitions").1 0 "48-1-2".data
      (by decide) (fun j hj => absurd hj (Nat.not_lt_zero j))
  · refine (C7_extract_section_number "Chapter one.").2.1 ?_
    intro i
    by_cases hi : i < 12
    · interval_cases i <;> decide
    · have hlen : ("Chapter one.".data).length ≤ i := by
        have h12 : ("Chapter one.".data).length = 12 := by decide
        omega
      rw [List.drop_eq_nil_of_le hlen]
      decide

/-! ## Claim C10 -/

theorem tripleAtHead_patAtHead (l : List Char) (h : tripleAtHead l = true) :
    ∃ m, patAtHead l = some m := by
  unfold tripleAtHead at h
  rw [Bool.and_eq_true] at h
  obtain ⟨h1, h2⟩ := h
  rw [Bool.not_eq_true'] at h1
  unfold patAtHead
  rw [h1]
  simp only [Bool.false_eq_true, if_false]
  split at h2
  case h_2 => cases h2
  case h_1 r1 heq =>
    rw [Bool.and_eq_true] at h2
    obtain ⟨h3, h4⟩ := h2
    rw [Bool.not_eq_true'] at h3
    rw [h3]
    simp only [Bool.false_eq_true, if_false]
    split at h4
    case h_2 => cases h4
    case h_1 r2 heq2 =>
      rw [Bool.not_eq_true'] at h4
      rw [h4]
      simp only [Bool.false_eq_true, if_false]
      rw [← Option.isSome_iff_exists]
      split
      · split <;> rfl
      · rfl

theorem containsTriple_findPat (l : List Char) (h : containsTriple l = true) :
    ∃ m, findPat l = some m := by
  induction l with
  | nil => cases h
  | cons c rest ih =>
    unfold containsTriple at h
    rw [Bool.or_eq_true] at h
    unfold findPat
    cases hp : patAtHead (c :: rest) with
    | some m => exact ⟨m, rfl⟩
    | none =>
      cases h with
      | inl h1 =>
        obtain ⟨m, hm⟩ := tripleAtHead_patAtHead _ h1
        rw [hm] at hp
        cases hp
      | inr h2 => exact ih h2

theorem findPat_from_patAtHead (l m : List Char) (h : findPat l = some m) :
    ∃ l', patAtHead l' = some m := by
  induction l with
  | nil => cases h
  | cons c rest ih =>
    unfold findPat at h
    cases hp : patAtHead (c :: rest) with
    | some m' => rw [hp] at h; cases h; exact ⟨c :: rest, hp⟩
    | none => rw [hp] at h; exact ih h

theorem all_takeWhile_digits (l : List Char) :
    ∀ c ∈ l.takeWhile isDigitC, isDigitC c := by
  intro c hc
  exact List.mem_takeWhile_imp hc

theorem patAtHead_shape (l m : List Char) (h : patAtHead l = some m) :
    ∃ d1 d2 d3 ext, m = d1 ++ '-' :: d2 ++ '-' :: d3 ++ ext ∧
      d1 ≠ [] ∧ d2 ≠ [] ∧ d3 ≠ [] ∧
      (∀ c ∈ d1, isDigitC c) ∧ (∀ c ∈ d2, isDigitC c) ∧ (∀ c ∈ d3, isDigitC c) ∧
      (ext = [] ∨ ∃ d4, ext = '.' :: d4 ∧ d4 ≠ [] ∧ ∀ c ∈ d4, isDigitC c) := by
  unfold patAtHead at h
  split at h
  case isTrue => cases h
  case isFalse h1 =>
    split at h
    case h_2 => cases h
    case h_1 r1 heq1 =>
      split at h
      case isTrue => cases h
      case isFalse h2 =>
        split at h
        case h_2 => cases h
        case h_1 r2 heq2 =>
          split at h
          case isTrue => cases h
          case isFalse h3 =>
            refine ⟨l.takeWhile isDigitC, r1.takeWhile isDigitC,
              r2.takeWhile isDigitC, ?_⟩
            split at h
            case h_1 r3 heq3 =>
              split at h
              case isTrue =>
                injection h with h4
                refine ⟨[], by simp [← h4], by simpa using h1, by simpa using h2,
                  by simpa using h3, all_takeWhile_digits l,
                  all_takeWhile_digits r1, all_takeWhile_digits r2, Or.inl rfl⟩
              case isFalse h5 =>
                injection h with h4
                refine ⟨'.' :: r3.takeWhile isDigitC, by simp [← h4],
                  by simpa using h1, by simpa using h2, by simpa using h3,
                  all_takeWhile_digits l, all_takeWhile_digits r1,
                  all_takeWhile_digits r2,
                  Or.inr ⟨r3.takeWhile isDigitC, rfl, by simpa using h5,
                    all_takeWhile_digits r3⟩⟩
            case h_2 =>
              injection h with h4
              refine ⟨[], by simp [← h4], by simpa using h1, by simpa using h2,
                by simpa using h3, all_takeWhile_digits l,
                all_takeWhile_digits r1, all_takeWhile_digits r2, Or.inl rfl⟩

@[simp] theorem data_mk (l : List Char) : (String.mk l).data = l := rfl

theorem splitDashGo_no_dash (a : List Char) (ha : ∀ c ∈ a, c ≠ '-') :
    ∀ (acc rest : List Char),
      splitDashGo (a ++ '-' :: rest) acc = (acc.reverse ++ a) :: splitDashGo rest [] := by
  induction a with
  | nil => intro acc rest; simp [splitDashGo]
  | cons c a' ih =>
    intro acc rest
    have hc : c ≠ '-' := ha c (by simp)
    simp only [List.cons_append, splitDashGo, if_neg hc, List.append_eq]
    rw [ih (fun x hx => ha x (by simp [hx])) (c :: acc) rest]
    simp

theorem chapterOf_shape (d1 d2 rest' : List Char)
    (h1 : ∀ c ∈ d1, c ≠ '-') (h2 : ∀ c ∈ d2, c ≠ '-') :
    chapterOf (String.mk (d1 ++ ('-' :: (d2 ++ ('-' :: rest'))))) = String.mk d2 := by
  unfold chapterOf splitDash
  simp only [data_mk]
  rw [splitDashGo_no_dash d1 h1 [] (d2 ++ '-' :: rest'),
    splitDashGo_no_dash d2 h2 [] rest']
  simp

theorem digit_ne_dash (c : Char) (h : isDigitC c) : c ≠ '-' := by
  intro he
  subst he
  simp [isDigitC] at h

/-- C10: every record produced by `parse_source_xml` has a
`section_number` that fully matches `\d+-\d+-\d+(\.\d+)?` — the
sanitized-caption fallback of `extract_section_number` is never taken,
because only captions containing the numeric pattern are kept — and
consequently a non-empty `chapter`, so the tree builder's empty-chapter
drop branch can never fire on extractor output. -/
theorem C10_extractor_invariant :
    ∀ (entries : List SrcEntry) (r : Record), r ∈ parse_source_xml entries →
      (∃ d1 d2 d3 ext, r.section_number.data = d1 ++ '-' :: d2 ++ '-' :: d3 ++ ext ∧
        d1 ≠ [] ∧ d2 ≠ [] ∧ d3 ≠ [] ∧
        (∀ c ∈ d1, isDigitC c) ∧ (∀ c ∈ d2, isDigitC c) ∧ (∀ c ∈ d3, isDigitC c) ∧
        (ext = [] ∨ ∃ d4, ext = '.' :: d4 ∧ d4 ≠ [] ∧ ∀ c ∈ d4, isDigitC c)) ∧
      r.chapter ≠ "" := by
  intro entries r hmem
  unfold parse_source_xml at hmem
  rw [List.mem_filterMap] at hmem
  obtain ⟨e, -, hr⟩ := hmem
  split at hr
  case isFalse => cases hr
  case isTrue =>
    split at hr
    case h_1 => cases hr
    case h_2 =>
      rename_i capv heq
      split at hr
      case isTrue => cases hr
      case isFalse =>
        split at hr
        case isFalse => cases hr
        case isTrue hct =>
          obtain ⟨m, hm⟩ := containsTriple_findPat _ hct
          obtain ⟨l', hl'⟩ := findPat_from_patAtHead _ _ hm
          obtain ⟨d1, d2, d3, ext, hdec, hd1, hd2, hd3, ha1, ha2, ha3, hext⟩ :=
            patAtHead_shape l' m hl'
          have hsn : extract_section_number (String.mk (stripL capv.data)) = String.mk m := by
            unfold extract_section_number
            rw [data_mk, hm]
          dsimp only at hr
          injection hr with hr'
          subst hr'
          constructor
          · refine ⟨d1, d2, d3, ext, ?_, hd1, hd2, hd3, ha1, ha2, ha3, hext⟩
            show (extract_section_number (String.mk (stripL capv.data))).data = _
            rw [hsn, data_mk]
            exact hdec
          · show chapterOf (extract_section_number (String.mk (stripL capv.data))) ≠ ""
            rw [hsn, hdec]
            simp only [List.append_assoc, List.cons_append]
            rw [chapterOf_shape d1 d2 (d3 ++ ext)
              (fun c hc => digit_ne_dash c (ha1 c hc))
              (fun c hc => digit_ne_dash c (ha2 c hc))]
            intro hbad
            exact hd2 (congrArg String.data hbad)

/-- Witness for C10 at a one-entry source document. -/
theorem C10_extractor_invariant_witness :
    (∃ d1 d2 d3 ext,
      ({ section_number := "48-1-2", title := "D", text := "(a) x", history := "",
         chapter := "1",
         subsections := [{ identifier := "a", text := "x", children := [] }] } :
           Record).section_number.data = d1 ++ '-' :: d2 ++ '-' :: d3 ++ ext ∧
      d1 ≠ [] ∧ d2 ≠ [] ∧ d3 ≠ [] ∧
      (∀ c ∈ d1, isDigitC c) ∧ (∀ c ∈ d2, isDigitC c) ∧ (∀ c ∈ d3, isDigitC c) ∧
      (ext = [] ∨ ∃ d4, ext = '.' :: d4 ∧ d4 ≠ [] ∧ ∀ c ∈ d4, isDigitC c)) ∧
    ({ section_number := "48-1-2", title := "D", text := "(a) x", history := "",
       chapter := "1",
       subsections := [{ identifier := "a", text := "x", children := [] }] } :
         Record).chapter ≠ "" :=
  C10_extractor_invariant
    [{ level := "3", caption := some "48-1-2 Definitions", description := some "D",
       content := some "(a) x", history := none }]
    { section_number := "48-1-2", title := "D", text := "(a) x", history := "",
      chapter := "1",
      subsections := [{ identifier := "a", text := "x", children := [] }] }
    (by decide)

/-! ## Claim C8 -/

/-- Association lookup in the grouping dict model. -/
def alookup (k : String) : List (String × List Record) → Option (List Record)
  | [] => none
  | (k', v) :: rest => if k' = k then some v else alookup k rest

theorem alookup_upsert_same (m : List (String × List Record)) (k : String) (v : Record) :
    alookup k (upsert m k v) = some ((alookup k m).getD [] ++ [v]) := by
  induction m with
  | nil => simp [upsert, alookup]
  | cons p rest ih =>
    obtain ⟨k', vs⟩ := p
    by_cases hk : k' = k
    · subst hk
      simp [upsert, alookup]
    · simp [upsert, alookup, hk, ih]

theorem alookup_upsert_other (m : List (String × List Record)) (k k' : String)
    (v : Record) (h : k' ≠ k) :
    alookup k' (upsert m k v) = alookup k' m := by
  have hne : ¬ k = k' := fun he => h he.symm
  induction m with
  | nil => simp [upsert, alookup, hne]
  | cons p rest ih =>
    obtain ⟨k'', vs⟩ := p
    by_cases hk : k'' = k
    · subst hk
      simp [upsert, alookup, ih, hne]
    · simp [upsert, alookup, hk, ih]

theorem upsert_keys (m : List (String × List Record)) (k : String) (v : Record) :
    (upsert m k v).map Prod.fst =
      (if k ∈ m.map Prod.fst then m.map Prod.fst else m.map Prod.fst ++ [k]) := by
  induction m with
  | nil => simp [upsert]
  | cons p rest ih =>
    obtain ⟨k', vs⟩ := p
    by_cases hk : k' = k
    · subst hk
      simp [upsert]
    · simp only [upsert, if_neg hk, List.map_cons, ih]
      by_cases hin : k ∈ rest.map Prod.fst
      · rw [if_pos hin, if_pos (by simp [hin])]
      · rw [if_neg hin, if_neg ?_]
        · simp
        · simp only [List.mem_cons]
          rintro (he | he)
          · exact hk he.symm
          · exact hin he

theorem upsert_keys_nodup (m : List (String × List Record)) (k : String) (v : Record)
    (h : (m.map Prod.fst).Nodup) : ((upsert m k v).map Prod.fst).Nodup := by
  rw [upsert_keys]
  by_cases hin : k ∈ m.map Prod.fst
  · simpa [hin] using h
  · rw [if_neg hin, List.nodup_append]
    refine ⟨h, List.nodup_singleton k, fun a ha hb => ?_⟩
    have : a = k := by simpa using hb
    subst this
    exact hin ha

/-- The dict value for key `k` once the records in `pre` are processed. -/
def optGroup (pre : List Record) (k : String) : Option (List Record) :=
  if (pre.filter (fun s => s.chapter == k)).isEmpty then none
  else some (pre.filter (fun s => s.chapter == k))

theorem foldl_upsert_inv (secs : List Record) :
    ∀ (m : List (String × List Record)) (pre : List Record),
      ((m.map Prod.fst).Nodup) →
      (∀ k, alookup k m = optGroup pre k) →
      (((secs.foldl (fun m s => upsert m s.chapter s) m).map Prod.fst).Nodup ∧
       ∀ k, alookup k (secs.foldl (fun m s => upsert m s.chapter s) m) =
         optGroup (pre ++ secs) k) := by
  induction secs with
  | nil =>
    intro m pre hnd hlk
    simpa using ⟨hnd, hlk⟩
  | cons s rest ih =>
    intro m pre hnd hlk
    rw [List.foldl_cons]
    have h2 : ∀ k, alookup k (upsert m s.chapter s) = optGroup (pre ++ [s]) k := by
      intro k
      by_cases hk : k = s.chapter
      · subst hk
        rw [alookup_upsert_same, hlk]
        have hfil : (pre ++ [s]).filter (fun s' => s'.chapter == s.chapter) =
            pre.filter (fun s' => s'.chapter == s.chapter) ++ [s] := by
          simp [List.filter_append, List.filter_cons]
        simp only [optGroup, hfil]
        by_cases hemp : (pre.filter (fun s' => s'.chapter == s.chapter)).isEmpty
        · have he : pre.filter (fun s' => s'.chapter == s.chapter) = [] := by
            simpa [List.isEmpty_iff] using hemp
          simp [he]
        · have hne : pre.filter (fun s' => s'.chapter == s.chapter) ≠ [] := by
            simpa [List.isEmpty_iff] using hemp
          simp [hemp, List.isEmpty_iff, hne]
      · rw [alookup_upsert_other m s.chapter k s hk, hlk]
        have hbf : (s.chapter == k) = false :=
          beq_eq_false_iff_ne.mpr (fun he => hk he.symm)
        simp [optGroup, List.filter_append, List.filter_cons, hbf]
    have h1 := upsert_keys_nodup m s.chapter s hnd
    have hres := ih (upsert m s.chapter s) (pre ++ [s]) h1 h2
    refine ⟨hres.1, fun k => ?_⟩
    rw [List.append_cons pre s rest]
    exact hres.2 k

theorem groupByChapter_spec (secs : List Record) :
    ((groupByChapter secs).map Prod.fst).Nodup ∧
    ∀ k, alookup k (groupByChapter secs) = optGroup secs k := by
  have h := foldl_upsert_inv secs [] [] (by simp) (by intro k; simp [alookup, optGroup])
  simpa [groupByChapter] using h

theorem alookup_of_mem (m : List (String × List Record)) (k : String) (g : List Record)
    (hnd : (m.map Prod.fst).Nodup) (h : (k, g) ∈ m) : alookup k m = some g := by
  induction m with
  | nil => cases h
  | cons p rest ih =>
    obtain ⟨k', v⟩ := p
    rw [List.mem_cons] at h
    rw [List.map_cons, List.nodup_cons] at hnd
    cases h with
    | inl h =>
      cases h
      simp [alookup]
    | inr h =>
      have hk : k' ≠ k := by
        intro he
        subst he
        exact hnd.1 (List.mem_map.mpr ⟨(k', g), h, rfl⟩)
      simp only [alookup, if_neg hk]
      exact ih hnd.2 h

theorem mem_of_alookup (m : List (String × List Record)) (k : String) (g : List Record)
    (h : alookup k m = some g) : (k, g) ∈ m := by
  induction m with
  | nil => cases h
  | cons p rest ih =>
    obtain ⟨k', v⟩ := p
    by_cases hk : k' = k
    · subst hk
      simp only [alookup, if_pos rfl] at h
      injection h with h
      subst h
      exact List.mem_cons_self ..
    · simp only [alookup, if_neg hk] at h
      exact List.mem_cons_of_mem _ (ih h)

/-- C8: the tree builder's chapter loop — the emitted chapter groups have
pairwise strictly increasing keys, every emitted group has a non-empty
key and is exactly the subsequence of records with that chapter key in
their original extraction order, every non-empty chapter key occurring in
the records is emitted, and the body element is built from exactly this
group list. -/
theorem C8_chapter_grouping :
    ∀ (secs : List Record) (title_num : Nat),
      ((chapterList secs).map Prod.fst).Pairwise (· < ·) ∧
      (∀ kg ∈ chapterList secs, kg.1 ≠ "" ∧
        kg.2 = secs.filter (fun s => s.chapter == kg.1) ∧ kg.2 ≠ []) ∧
      (∀ k, k ≠ "" → (∃ s ∈ secs, s.chapter = k) →
        (k, secs.filter (fun s => s.chapter == k)) ∈ chapterList secs) ∧
      (bodyElem title_num secs).children =
        (chapterList secs).map (fun kg => chapterElem title_num kg.1 kg.2) := by
  intro secs title_num
  obtain ⟨hnd, hlk⟩ := groupByChapter_spec secs
  have hperm := List.perm_insertionSort keyLe (groupByChapter secs)
  have hsorted := List.sorted_insertionSort keyLe (groupByChapter secs)
  have hndsorted :
      ((List.insertionSort keyLe (groupByChapter secs)).map Prod.fst).Nodup :=
    ((hperm.map Prod.fst).nodup_iff).mpr hnd
  refine ⟨?_, ?_, ?_, rfl⟩
  · have hle : ((List.insertionSort keyLe (groupByChapter secs)).map Prod.fst).Pairwise
        (fun a b : String => a ≤ b) :=
      hsorted.map Prod.fst (fun _ _ h => h)
    have hlt : ((List.insertionSort keyLe (groupByChapter secs)).map Prod.fst).Pairwise
        (fun a b : String => a < b) :=
      (hle.and hndsorted).imp (fun h => lt_of_le_of_ne h.1 h.2)
    exact hlt.sublist ((List.filter_sublist _).map Prod.fst)
  · intro kg hkg
    rw [chapterList, List.mem_filter] at hkg
    obtain ⟨hmem, hne⟩ := hkg
    have hne' : kg.1 ≠ "" := by simpa using hne
    rw [hperm.mem_iff] at hmem
    have hl := alookup_of_mem _ kg.1 kg.2 hnd (by simpa using hmem)
    rw [hlk kg.1] at hl
    unfold optGroup at hl
    split at hl
    · cases hl
    case isFalse hemp =>
      injection hl with hl
      refine ⟨hne', hl.symm, ?_⟩
      rw [← hl]
      simpa [List.isEmpty_iff] using hemp
  · intro k hk hex
    obtain ⟨s, hs, hsc⟩ := hex
    have hfne : (secs.filter (fun s' => s'.chapter == k)) ≠ [] := by
      intro hbad
      have : s ∈ secs.filter (fun s' => s'.chapter == k) := by
        rw [List.mem_filter]
        exact ⟨hs, by simp [hsc]⟩
      rw [hbad] at this
      cases this
    have hopt : optGroup secs k = some (secs.filter (fun s' => s'.chapter == k)) := by
      unfold optGroup
      rw [if_neg (by simpa [List.isEmpty_iff] using hfne)]
    have hmem := mem_of_alookup _ k _ ((hlk k).trans hopt)
    rw [chapterList, List.mem_filter]
    exact ⟨by rw [hperm.mem_iff]; exact hmem, by simpa using hk⟩

/-- A concrete record list exercising the chapter grouping. -/
def c8secs : List Record :=
  [{ section_number := "5-2-1", title := "", text := "", history := "",
     chapter := "2", subsections := [] },
   { section_number := "5-1-1", title := "", text := "", history := "",
     chapter := "1", subsections := [] },
   { section_number := "x", title := "", text := "", history := "",
     chapter := "", subsections := [] }]

/-- Witness for C8 at a concrete record list: chapter `1` is emitted with
exactly its records. -/
theorem C8_chapter_grouping_witness :
    ("1", c8secs.filter (fun s => s.chapter == "1")) ∈ chapterList c8secs :=
  (C8_chapter_grouping c8secs 5).2.2.1 "1" (by decide)
    ⟨{ section_number := "5-1-1", title := "", text := "", history := "",
       chapter := "1", subsections := [] }, by decide, rfl⟩

/-! ## Claim C9: no tag-shaped substring survives the normalizer -/

/-- Does a match of `<[^>]+>` start at the head? -/
def tagAtHead : List Char → Bool
  | [] => false
  | c :: rest =>
    c = '<' && (match firstGt rest with
      | some (b, _) => !b.isEmpty
      | none => false)

/-- Does the string contain a substring matching `<[^>]+>` ? -/
def hasTagB : List Char → Bool
  | [] => false
  | c :: rest => tagAtHead (c :: rest) || hasTagB rest

theorem firstGt_eq_none_iff (l : List Char) : firstGt l = none ↔ '>' ∉ l := by
  induction l with
  | nil => simp [firstGt]
  | cons c rest ih =>
    by_cases hc : c = '>'
    · subst hc
      simp [firstGt]
    · have hc' : ¬ '>' = c := fun he => hc he.symm
      simp only [firstGt, if_neg hc]
      cases hfg : firstGt rest with
      | some p => simp [hfg, List.mem_cons, hc', ← ih]
      | none => simp [hfg, List.mem_cons, hc', ← ih]

theorem firstGt_eq_some (l b a : List Char) (h : firstGt l = some (b, a)) :
    l = b ++ '>' :: a ∧ '>' ∉ b := by
  induction l generalizing b with
  | nil => cases h
  | cons c rest ih =>
    by_cases hc : c = '>'
    · subst hc
      simp only [firstGt, if_pos rfl, Option.some.injEq, Prod.mk.injEq] at h
      obtain ⟨h1, h2⟩ := h
      simp
    · have hc' : ¬ '>' = c := fun he => hc he.symm
      simp only [firstGt, if_neg hc] at h
      cases hfg : firstGt rest with
      | none => rw [hfg] at h; cases h
      | some p =>
        obtain ⟨b', a'⟩ := p
        rw [hfg] at h
        simp only [Option.some.injEq, Prod.mk.injEq] at h
        obtain ⟨h1, h2⟩ := h
        subst h2
        obtain ⟨hl, hnb⟩ := ih b' hfg
        subst h1
        subst hl
        simp [List.mem_cons, hc', hnb]

theorem firstGt_of_decomp (mid post : List Char) (hgt : '>' ∉ mid) :
    firstGt (mid ++ '>' :: post) = some (mid, post) := by
  induction mid with
  | nil => simp [firstGt]
  | cons c m ih =>
    have hc : c ≠ '>' := fun he => hgt (he ▸ List.mem_cons_self ..)
    have ih' := ih (fun hm => hgt (List.mem_cons_of_mem _ hm))
    simp only [List.cons_append, firstGt, if_neg hc, List.append_eq, ih']

theorem hasTagB_append_right (l₁ l₂ : List Char) (h : hasTagB l₂ = true) :
    hasTagB (l₁ ++ l₂) = true := by
  induction l₁ with
  | nil => simpa using h
  | cons c m ih => simp [hasTagB, ih]

theorem tagAtHead_append (l m : List Char) (h : tagAtHead l = true) :
    tagAtHead (l ++ m) = true := by
  cases l with
  | nil => cases h
  | cons c rest =>
    simp only [List.cons_append, tagAtHead, Bool.and_eq_true] at h ⊢
    obtain ⟨hc, hm⟩ := h
    refine ⟨hc, ?_⟩
    cases hfg : firstGt rest with
    | none => rw [hfg] at hm; cases hm
    | some p =>
      obtain ⟨b, a⟩ := p
      rw [hfg] at hm
      obtain ⟨hl, hnb⟩ := firstGt_eq_some rest b a hfg
      subst hl
      simp only [List.append_assoc, List.cons_append]
      rw [firstGt_of_decomp b (a ++ m) hnb]
      simpa using hm

theorem hasTagB_append_left (l₁ l₂ : List Char) (h : hasTagB l₁ = true) :
    hasTagB (l₁ ++ l₂) = true := by
  induction l₁ with
  | nil => cases h
  | cons c m ih =>
    simp only [hasTagB, Bool.or_eq_true] at h
    cases h with
    | inl h =>
      have := tagAtHead_append (c :: m) l₂ h
      rw [List.cons_append] at this
      simp [hasTagB, this]
    | inr h => simp [hasTagB, ih h]

theorem hasTagB_of_decomp (pre mid post : List Char) (hm : mid ≠ [])
    (hgt : '>' ∉ mid) :
    hasTagB (pre ++ '<' :: (mid ++ '>' :: post)) = true := by
  apply hasTagB_append_right
  have ht : tagAtHead ('<' :: (mid ++ '>' :: post)) = true := by
    simp only [tagAtHead, firstGt_of_decomp mid post hgt]
    simpa using hm
  simp [hasTagB, ht]

theorem hasTagB_of_no_gt (l : List Char) (h : '>' ∉ l) : hasTagB l = false := by
  induction l with
  | nil => rfl
  | cons c rest ih =>
    have hr : '>' ∉ rest := fun hm => h (List.mem_cons_of_mem _ hm)
    simp only [hasTagB, Bool.or_eq_false_iff]
    refine ⟨?_, ih hr⟩
    simp only [tagAtHead]
    rw [(firstGt_eq_none_iff rest).mpr hr]
    simp

theorem remTagsGo_noTag : ∀ (fuel : Nat) (l : List Char), l.length ≤ fuel →
    hasTagB (remTagsGo fuel l) = false := by
  intro fuel
  induction fuel with
  | zero =>
    intro l hl
    rw [Nat.le_zero] at hl
    rw [List.length_eq_zero] at hl
    subst hl
    rfl
  | succ f ih =>
    intro l hl
    match l with
    | [] => rfl
    | c :: rest =>
      have hrl : rest.length ≤ f := by
        simp only [List.length_cons] at hl
        omega
      by_cases hc : c = '<'
      · subst hc
        rw [remTagsGo, if_pos rfl]
        cases hfg : firstGt rest with
        | none =>
          have hng : '>' ∉ rest := (firstGt_eq_none_iff rest).mp hfg
          apply hasTagB_of_no_gt
          intro hmem
          rw [List.mem_cons] at hmem
          rcases hmem with he | he
          · exact absurd he (by decide)
          · exact hng he
        | some p =>
          obtain ⟨b, a⟩ := p
          by_cases hb : b.isEmpty
          · dsimp only
            rw [if_pos hb]
            have hih := ih rest hrl
            have hbnil : b = [] := by simpa [List.isEmpty_iff] using hb
            subst hbnil
            obtain ⟨hl2, -⟩ := firstGt_eq_some rest [] a hfg
            rw [List.nil_append] at hl2
            subst hl2
            have hstep : ∃ t, remTagsGo f ('>' :: a) = '>' :: t := by
              cases f with
              | zero => exact ⟨a, rfl⟩
              | succ f' =>
                refine ⟨remTagsGo f' a, ?_⟩
                rw [remTagsGo, if_neg (by decide)]
            obtain ⟨t, ht⟩ := hstep
            rw [ht]
            rw [ht] at hih
            simp only [hasTagB, Bool.or_eq_false_iff]
            refine ⟨?_, by simpa [hasTagB] using hih⟩
            simp [tagAtHead, firstGt]
          · dsimp only
            rw [if_neg hb]
            apply ih
            obtain ⟨hl2, -⟩ := firstGt_eq_some rest b a hfg
            subst hl2
            simp only [List.length_append, List.length_cons] at hrl
            omega
      · rw [remTagsGo, if_neg hc]
        have hih := ih rest hrl
        simp only [hasTagB, Bool.or_eq_false_iff]
        refine ⟨?_, hih⟩
        simp [tagAtHead, hc]

theorem collapseGo_nil (f : Nat) : collapseGo f [] = [] := by
  cases f <;> rfl

theorem collapseGo_head (f : Nat) (d : Char) (t : List Char) :
    ∃ t', collapseGo f (d :: t) = d :: t' := by
  cases f with
  | zero => exact ⟨t, rfl⟩
  | succ f' =>
    by_cases hd : d = '\n'
    · subst hd
      by_cases hrun : (t.takeWhile isWs).contains '\n'
      · exact ⟨_, by rw [collapseGo, if_pos rfl, if_pos hrun]⟩
      · exact ⟨_, by rw [collapseGo, if_pos rfl, if_neg hrun]⟩
    · exact ⟨_, by rw [collapseGo, if_neg hd]⟩

theorem ne_of_not_ws {c0 c1 : Char} (h : isWs c0 = false) (h1 : isWs c1 = true) :
    c0 ≠ c1 := by
  intro he
  rw [he, h1] at h
  cases h

theorem mem_afterLastNl (run : List Char) (c0 : Char) (h : c0 ∈ afterLastNl run) :
    c0 ∈ run := by
  unfold afterLastNl at h
  rw [List.mem_reverse] at h
  have h2 := (List.takeWhile_sublist _).subset h
  rwa [List.mem_reverse] at h2

theorem run_decomp (run : List Char) :
    run = (run.reverse.dropWhile (fun c => c ≠ '\n')).reverse ++ afterLastNl run := by
  have h := List.takeWhile_append_dropWhile (p := fun c => c ≠ '\n') (l := run.reverse)
  conv_lhs => rw [← List.reverse_reverse run, ← h]
  rw [List.reverse_append, afterLastNl]

theorem mem_collapseGo_iff (c0 : Char) (hws : isWs c0 = false) :
    ∀ (f : Nat) (l : List Char), c0 ∈ collapseGo f l ↔ c0 ∈ l := by
  intro f
  induction f with
  | zero => intro l; exact Iff.rfl
  | succ f ih =>
    intro l
    match l with
    | [] => exact Iff.rfl
    | c :: rest =>
      by_cases hc : c = '\n'
      · subst hc
        by_cases hrun : (rest.takeWhile isWs).contains '\n'
        · rw [collapseGo, if_pos rfl, if_pos hrun]
          have hnl : c0 ≠ '\n' := ne_of_not_ws hws (by decide)
          have hmem_run : c0 ∉ rest.takeWhile isWs := by
            intro hm
            rw [List.mem_takeWhile_imp hm] at hws
            cases hws
          have haln : c0 ∉ afterLastNl (rest.takeWhile isWs) :=
            fun hm => hmem_run (mem_afterLastNl _ _ hm)
          have hrest : rest.takeWhile isWs ++ rest.dropWhile isWs = rest :=
            List.takeWhile_append_dropWhile (p := isWs) (l := rest)
          constructor
          · intro hmem
            rcases List.mem_cons.mp hmem with he | hmem2
            · exact absurd he hnl
            rcases List.mem_cons.mp hmem2 with he | hmem3
            · exact absurd he hnl
            have hrem := (ih _).mp hmem3
            rcases List.mem_append.mp hrem with ha | ht
            · exact absurd ha haln
            · exact List.mem_cons_of_mem _
                (hrest ▸ List.mem_append.mpr (Or.inr ht))
          · intro hmem
            rcases List.mem_cons.mp hmem with he | hmem2
            · exact absurd he hnl
            rw [← hrest] at hmem2
            rcases List.mem_append.mp hmem2 with hr | ht
            · exact absurd hr hmem_run
            · exact List.mem_cons_of_mem _ (List.mem_cons_of_mem _
                ((ih _).mpr (List.mem_append.mpr (Or.inr ht))))
        · rw [collapseGo, if_pos rfl, if_neg hrun]
          simp [List.mem_cons, ih]
      · rw [collapseGo, if_neg hc]
        simp [List.mem_cons, ih]

theorem firstGt_pos_of (d : Char) (t : List Char) (hd : d ≠ '>') (hin : '>' ∈ t) :
    ∃ b a, firstGt (d :: t) = some (d :: b, a) := by
  cases hfg : firstGt t with
  | none => exact absurd ((firstGt_eq_none_iff t).mp hfg) (by simpa using hin)
  | some p =>
    obtain ⟨b, a⟩ := p
    exact ⟨b, a, by rw [firstGt, if_neg hd, hfg]⟩

theorem collapseGo_hasTag : ∀ (f : Nat) (l : List Char),
    hasTagB (collapseGo f l) = true → hasTagB l = true := by
  intro f
  induction f with
  | zero => intro l h; exact h
  | succ f ih =>
    intro l h
    match l with
    | [] => exact h
    | c :: rest =>
      by_cases hc : c = '\n'
      · subst hc
        by_cases hrun : (rest.takeWhile isWs).contains '\n'
        · rw [collapseGo, if_pos rfl, if_pos hrun] at h
          simp only [hasTagB, Bool.or_eq_true] at h ⊢
          have hT1 : tagAtHead ('\n' :: ('\n' ::
              collapseGo f (afterLastNl (rest.takeWhile isWs) ++ rest.dropWhile isWs)))
              = false := by
            simp [tagAtHead]
          have hT2 : tagAtHead ('\n' ::
              collapseGo f (afterLastNl (rest.takeWhile isWs) ++ rest.dropWhile isWs))
              = false := by
            simp [tagAtHead]
          rcases h with h | h
          · rw [hT1] at h; cases h
          rcases h with h | h
          · rw [hT2] at h; cases h
          have hrem := ih _ h
          right
          have hrest : rest.takeWhile isWs ++ rest.dropWhile isWs = rest :=
            List.takeWhile_append_dropWhile (p := isWs) (l := rest)
          have hdec := run_decomp (rest.takeWhile isWs)
          rw [← hrest, hdec, List.append_assoc]
          exact hasTagB_append_right _ _ hrem
        · rw [collapseGo, if_pos rfl, if_neg hrun] at h
          simp only [hasTagB, Bool.or_eq_true] at h ⊢
          rcases h with h | h
          · rw [show tagAtHead ('\n' :: collapseGo f rest) = false by simp [tagAtHead]] at h
            cases h
          · exact Or.inr (ih _ h)
      · rw [collapseGo, if_neg hc] at h
        simp only [hasTagB, Bool.or_eq_true] at h ⊢
        rcases h with h | h
        · left
          by_cases hlt : c = '<'
          · subst hlt
            simp only [tagAtHead, Bool.and_eq_true] at h ⊢
            obtain ⟨-, hm⟩ := h
            refine ⟨by simp, ?_⟩
            cases hfg : firstGt (collapseGo f rest) with
            | none => rw [hfg] at hm; cases hm
            | some p =>
              obtain ⟨b, a⟩ := p
              rw [hfg] at hm
              have hbne : b ≠ [] := by simpa using hm
              obtain ⟨hdec, hnb⟩ := firstGt_eq_some _ b a hfg
              obtain ⟨bh, bt, hb⟩ := List.exists_cons_of_ne_nil hbne
              subst hb
              have hhead : bh ≠ '>' := fun he => hnb (he ▸ List.mem_cons_self ..)
              have hgtmem : '>' ∈ collapseGo f rest := by
                rw [hdec]
                simp
              have hgtrest : '>' ∈ rest :=
                (mem_collapseGo_iff '>' (by decide) f rest).mp hgtmem
              cases rest with
              | nil => cases hgtrest
              | cons d t =>
                obtain ⟨t', ht'⟩ := collapseGo_head f d t
                rw [ht'] at hdec
                have hd : d = bh := by
                  have := congrArg List.head? hdec
                  simpa using this
                subst hd
                have hgt_t : '>' ∈ t := by
                  rcases List.mem_cons.mp hgtrest with he | hm2
                  · exact absurd he.symm hhead
                  · exact hm2
                obtain ⟨b2, a2, hfg2⟩ := firstGt_pos_of d t hhead hgt_t
                rw [hfg2]
                simp
          · rw [show tagAtHead (c :: collapseGo f rest) = false by simp [tagAtHead, hlt]] at h
            cases h
        · exact Or.inr (ih _ h)

theorem rstripL_prefix (l : List Char) : ∃ m, l = rstripL l ++ m := by
  induction l with
  | nil => exact ⟨[], rfl⟩
  | cons c rest ih =>
    obtain ⟨m, hm⟩ := ih
    cases hr : rstripL rest with
    | nil =>
      by_cases hws : isWs c
      · exact ⟨c :: rest, by rw [rstripL, hr]; simp [hws]⟩
      · refine ⟨rest, ?_⟩
        rw [rstripL, hr]
        simp [hws]
    | cons x xs =>
      refine ⟨m, ?_⟩
      rw [rstripL, hr]
      rw [hr] at hm
      conv_lhs => rw [show rest = (x :: xs) ++ m from hm]
      rfl

theorem hasTagB_stripL (l : List Char) (h : hasTagB (stripL l) = true) :
    hasTagB l = true := by
  have h1 : hasTagB (lstripL l) = true := by
    obtain ⟨m, hm⟩ := rstripL_prefix (lstripL l)
    rw [hm]
    exact hasTagB_append_left _ _ h
  have h2 := List.takeWhile_append_dropWhile (p := isWs) (l := l)
  rw [← h2]
  exact hasTagB_append_right _ _ h1

/-- The normalizer's output never contains a generic tag-shaped
substring: the final `re.sub(r"<[^>]+>", "", ...)` removes every match
and the later whitespace passes cannot create one. -/
theorem clean_noTag (x : String) : hasTagB (clean_html_content x).data = false := by
  unfold clean_html_content
  rw [data_mk]
  by_contra hbad
  rw [Bool.not_eq_false] at hbad
  have h1 := hasTagB_stripL _ hbad
  unfold collapseBlank at h1
  have h2 := collapseGo_hasTag _ _ h1
  unfold remTags at h2
  rw [remTagsGo_noTag _ _ le_rfl] at h2
  cases h2

/-- C9: for every input string — in particular every HTML-escaped input
containing only the whitelisted inline tags, possibly entity-encoded —
the output of `clean_html_content` contains no substring of the form
`<`, one or more non-`>` characters, `>`. -/
theorem C9_normalizer_no_tags :
    ∀ (x : String), ¬ ∃ pre mid post, mid ≠ [] ∧ '>' ∉ mid ∧
      (clean_html_content x).data = pre ++ '<' :: (mid ++ '>' :: post) := by
  intro x h
  obtain ⟨pre, mid, post, hm, hgt, hdec⟩ := h
  have hno := clean_noTag x
  rw [hdec, hasTagB_of_decomp pre mid post hm hgt] at hno
  cases hno

/-- Witness for C9 at a concrete escaped input. -/
theorem C9_normalizer_no_tags_witness :
    ¬ ∃ pre mid post, mid ≠ [] ∧ '>' ∉ mid ∧
      (clean_html_content "a &lt;B&gt;bold&lt;/B&gt; <SPAN>z</SPAN>").data =
        pre ++ '<' :: (mid ++ '>' :: post) :=
  C9_normalizer_no_tags "a &lt;B&gt;bold&lt;/B&gt; <SPAN>z</SPAN>"

/-! ## Claim C5 -/

theorem findMarkIdx_of_least (p : List Char → Bool) (hp0 : p [] = false) :
    ∀ (l : List Char) (i : Nat), p (l.drop i) = true →
      (∀ j, j < i → p (l.drop j) = false) → findMarkIdx p l = some i := by
  intro l
  induction l with
  | nil =>
    intro i hp hmin
    rw [List.drop_nil, hp0] at hp
    cases hp
  | cons c rest ih =>
    intro i hp hmin
    cases i with
    | zero =>
      rw [List.drop_zero] at hp
      rw [findMarkIdx, if_pos hp]
    | succ i' =>
      have h0 := hmin 0 (Nat.succ_pos i')
      rw [List.drop_zero] at h0
      rw [findMarkIdx, if_neg (by simp [h0])]
      rw [ih i' (by simpa using hp)
        (fun j hj => by simpa using hmin (j + 1) (Nat.succ_lt_succ hj))]
      rfl

theorem findMarkIdx_none_iff (p : List Char → Bool) (hp0 : p [] = false) :
    ∀ (l : List Char), findMarkIdx p l = none ↔ ∀ i, p (l.drop i) = false := by
  intro l
  induction l with
  | nil =>
    simp only [findMarkIdx, List.drop_nil, hp0]
    simp
  | cons c rest ih =>
    constructor
    · intro h i
      rw [findMarkIdx] at h
      by_cases h0 : p (c :: rest)
      · rw [if_pos h0] at h; cases h
      · cases i with
        | zero => simpa using h0
        | succ j =>
          rw [if_neg h0] at h
          have := ih.mp (by
            cases hf : findMarkIdx p rest with
            | none => rfl
            | some v => rw [hf] at h; cases h)
          simpa using this j
    · intro h
      have h0 := h 0
      rw [List.drop_zero] at h0
      rw [findMarkIdx, if_neg (by simp [h0])]
      rw [ih.mpr (fun i => by simpa using h (i + 1))]
      rfl

theorem findMarkIdx_some (p : List Char → Bool) :
    ∀ (l : List Char) (i : Nat), findMarkIdx p l = some i →
      p (l.drop i) = true ∧ ∀ j, j < i → p (l.drop j) = false := by
  intro l
  induction l with
  | nil => intro i h; cases h
  | cons c rest ih =>
    intro i h
    rw [findMarkIdx] at h
    by_cases h0 : p (c :: rest)
    · rw [if_pos h0] at h
      injection h with h
      subst h
      exact ⟨h0, fun j hj => absurd hj (Nat.not_lt_zero j)⟩
    · rw [if_neg h0] at h
      cases hf : findMarkIdx p rest with
      | none => rw [hf] at h; cases h
      | some i' =>
        rw [hf] at h
        have h' : i = i' + 1 := by simpa using h.symm
        subst h'
        obtain ⟨h1, h2⟩ := ih i' hf
        refine ⟨by simpa using h1, ?_⟩
        intro j hj
        cases j with
        | zero => simpa using h0
        | succ j' => simpa using h2 j' (by omega)

theorem introCut_none_iff (l : List Char) :
    introCut l = none ↔ ∀ p, 0 < p → letterMarkerAt (l.drop p) = false := by
  cases l with
  | nil =>
    simp [introCut, List.drop_nil, letterMarkerAt]
  | cons c rest =>
    simp only [introCut, Option.map_eq_none']
    rw [findMarkIdx_none_iff letterMarkerAt rfl rest]
    constructor
    · intro h p hp
      obtain ⟨p', rfl⟩ := Nat.exists_eq_add_of_lt hp
      simpa [Nat.add_comm] using h p'
    · intro h i
      simpa using h (i + 1) (Nat.succ_pos i)

theorem introCut_of_least (l : List Char) (p : Nat) (hp : 0 < p)
    (hm : letterMarkerAt (l.drop p) = true)
    (hmin : ∀ q, 0 < q → q < p → letterMarkerAt (l.drop q) = false) :
    introCut l = some (l.take p) := by
  cases l with
  | nil => rw [List.drop_nil] at hm; cases hm
  | cons c rest =>
    obtain ⟨i, rfl⟩ := Nat.exists_eq_add_of_lt hp
    rw [introCut]
    rw [findMarkIdx_of_least letterMarkerAt rfl rest i (by simpa [Nat.add_comm] using hm)
      (fun j hj => by simpa using hmin (j + 1) (Nat.succ_pos j) (by omega))]
    simp [Nat.add_comm]

theorem splitLAGo_head_shape (p : List Char → Bool) :
    ∀ (l acc : List Char), ∃ s r, splitLAGo p l acc = (acc.reverse ++ s) :: r := by
  intro l
  induction l with
  | nil => intro acc; exact ⟨[], [], by simp [splitLAGo]⟩
  | cons c rest ih =>
    intro acc
    by_cases hp : p (c :: rest)
    · exact ⟨[], splitLAGo p rest [c], by simp [splitLAGo, hp]⟩
    · obtain ⟨s, r, hs⟩ := ih (c :: acc)
      refine ⟨c :: s, r, ?_⟩
      rw [splitLAGo, if_neg hp, hs]
      simp

theorem splitLAGo_no_marker (p : List Char → Bool) :
    ∀ (l acc : List Char), (∀ i, p (l.drop i) = false) →
      splitLAGo p l acc = [acc.reverse ++ l] := by
  intro l
  induction l with
  | nil => intro acc _; simp [splitLAGo]
  | cons c rest ih =>
    intro acc h
    have h0 := h 0
    rw [List.drop_zero] at h0
    rw [splitLAGo, if_neg (by simp [h0])]
    rw [ih (c :: acc) (fun i => by simpa using h (i + 1))]
    simp

theorem letterMarkerWsAt_shape (l : List Char) (h : letterMarkerWsAt l = true) :
    ∃ a w t, l = '(' :: a :: ')' :: w :: t ∧ isLowerAZ a = true ∧ isWs w = true := by
  match l with
  | c1 :: c2 :: c3 :: c4 :: t =>
    simp only [letterMarkerWsAt, Bool.and_eq_true, decide_eq_true_eq] at h
    obtain ⟨⟨⟨h1, h2⟩, h3⟩, h4⟩ := h
    subst h1
    subst h3
    exact ⟨c2, c4, t, rfl, h2, h4⟩
  | [] => cases h
  | [_] => cases h
  | [_, _] => cases h
  | [_, _, _] => cases h

theorem letterMarkerWsAt_false_of_head (c : Char) (hc : c ≠ '\x28') (t : List Char) :
    letterMarkerWsAt (c :: t) = false := by
  match t with
  | [] => rfl
  | [_] => rfl
  | [_, _] => rfl
  | _ :: _ :: _ :: _ => simp [letterMarkerWsAt, hc]

theorem goSplit_marker : ∀ (l : List Char),
    (∃ i, letterMarkerWsAt (l.drop i) = true) →
    ∀ (acc : List Char), ∃ a w t rest2,
      (splitLAGo letterMarkerWsAt l acc).drop 1 =
        ('(' :: a :: ')' :: w :: t) :: rest2 ∧ isLowerAZ a = true := by
  intro l
  induction l with
  | nil =>
    intro h acc
    obtain ⟨i, hi⟩ := h
    rw [List.drop_nil] at hi
    cases hi
  | cons c rest ih =>
    intro h acc
    by_cases hp : letterMarkerWsAt (c :: rest)
    · obtain ⟨a, w, t, hsh, hlow, hws⟩ := letterMarkerWsAt_shape _ hp
      have hc : c = '(' := by
        injection hsh
      subst hc
      have hrest : rest = a :: ')' :: w :: t := by
        injection hsh
      subst hrest
      rw [splitLAGo, if_pos hp]
      -- the next three positions cannot split
      have ha : a ≠ '(' := by
        intro he
        rw [he] at hlow
        simp [isLowerAZ] at hlow
      have hw : w ≠ '(' := by
        intro he
        rw [he] at hws
        simp [isWs] at hws
      have h2 := letterMarkerWsAt_false_of_head a ha (')' :: w :: t)
      rw [List.drop_one, List.tail_cons]
      rw [splitLAGo, if_neg (by simp [h2])]
      have h3 := letterMarkerWsAt_false_of_head ')' (by decide) (w :: t)
      rw [splitLAGo, if_neg (by simp [h3])]
      have h4 := letterMarkerWsAt_false_of_head w hw t
      rw [splitLAGo, if_neg (by simp [h4])]
      obtain ⟨s, r, hs⟩ := splitLAGo_head_shape letterMarkerWsAt t (w :: ')' :: a :: ['('])
      rw [hs]
      exact ⟨a, w, s, r, by simp, hlow⟩
    · have hrest : ∃ i, letterMarkerWsAt (rest.drop i) = true := by
        obtain ⟨i, hi⟩ := h
        cases i with
        | zero =>
          rw [List.drop_zero] at hi
          exact absurd hi hp
        | succ i' => exact ⟨i', by simpa using hi⟩
      obtain ⟨a, w, t, rest2, hres, hlow⟩ := ih hrest (c :: acc)
      rw [splitLAGo, if_neg hp]
      exact ⟨a, w, t, rest2, hres, hlow⟩

theorem parse_subsections_empty_iff (t : String) :
    parse_subsections t = [] ↔ ∀ i, letterMarkerWsAt (t.data.drop i) = false := by
  constructor
  · intro h
    by_contra hbad
    push_neg at hbad
    obtain ⟨i, hi⟩ := hbad
    rw [Bool.ne_false_iff] at hi
    obtain ⟨a, w, tl, rest2, hres, hlow⟩ :=
      goSplit_marker t.data ⟨i, hi⟩ []
    unfold parse_subsections at h
    rw [splitLA] at h
    rw [hres] at h
    rw [List.filterMap_cons] at h
    have hm : matchLetterHead ('(' :: a :: ')' :: w :: tl) =
        some (a, (w :: tl).dropWhile isWs) := by
      simp [matchLetterHead, hlow]
    have hsome : ∃ sub, parseOneSub ('(' :: a :: ')' :: w :: tl) = some sub := by
      rw [← Option.isSome_iff_exists]
      rw [parseOneSub, hm]
      rfl
    obtain ⟨sub, hsub⟩ := hsome
    rw [hsub] at h
    cases h
  · intro h
    unfold parse_subsections
    rw [splitLA, splitLAGo_no_marker letterMarkerWsAt t.data [] h]
    rfl

/-- The tag names of an element's children, in order. -/
def childNames (e : XElem) : List String := e.children.map XElem.name

theorem map_name_addsub (l : List SubEntry) (sn : String) :
    l.map (XElem.name ∘ fun sub => add_subsection_element sub sn) =
      List.replicate l.length "subsection" := by
  induction l with
  | nil => rfl
  | cons hd tl ih =>
    simp only [List.map_cons, List.length_cons, List.replicate_succ, ih]
    rfl

theorem childNames_section (s : Record) :
    childNames (add_section_element s) =
      ["num"] ++ (if s.title = "" then [] else ["heading"]) ++
      (if s.subsections.isEmpty then ["content"] else
        (match introCut s.text.data with
         | some _ => ["intro"]
         | none => []) ++ s.subsections.map (fun _ => "subsection")) ++
      (if s.history = "" then [] else ["notes"]) := by
  by_cases he : s.subsections.isEmpty <;> by_cases ht : s.title = "" <;>
    by_cases hh : s.history = "" <;> cases hic : introCut s.text.data <;>
    simp [add_section_element, childNames, he, ht, hh, hic, map_name_addsub]

/-- C5 counterexample records: bodies starting with a marker, or with a
second marker, or with surrounding whitespace before the first marker. -/
def r5a : Record :=
  { section_number := "1-1-1", title := "", text := "(a) Hello", history := "",
    chapter := "1", subsections := parse_subsections "(a) Hello" }

def r5b : Record :=
  { section_number := "1-1-2", title := "", text := "(a) One. (b) Two.", history := "",
    chapter := "1", subsections := parse_subsections "(a) One. (b) Two." }

def r5c : Record :=
  { section_number := "1-1-3", title := "", text := "  Hi. (a) X", history := "",
    chapter := "1", subsections := parse_subsections "  Hi. (a) X" }

/-- C5 is false as stated: for a body that starts at its first lettered
marker the builder emits no intro block at all (`r5a`); when a second
marker exists, the emitted intro is the `.+?`-match up to the second
marker — duplicating subsection (a)'s text — instead of the (empty) text
before the first marker (`r5b`); and the emitted intro text is
whitespace-stripped, not the raw prefix (`r5c`, where the text before
the first marker is `"  Hi. "`). -/
theorem C5_counterexample :
    (parse_subsections "(a) Hello" ≠ [] ∧
      introTexts (add_section_element r5a) = []) ∧
    (introTexts (add_section_element r5b) = ["(a) One."] ∧
      ("(a) One." : String) ≠ "") ∧
    (introTexts (add_section_element r5c) = ["Hi."] ∧
      ("Hi." : String) ≠ "  Hi. ") := by
  decide

/-- C5 (amended): for a record with non-empty subsections the builder
emits an intro block exactly when a parenthesised lowercase letter occurs
at some position `p ≥ 1` of the body text; taking the least such `p`, the
intro text is the body's first `p` characters, whitespace-stripped and
truncated to 500, and it sits between any heading and the subsection
elements.  For an empty subsection list — which `parse_subsections`
produces exactly when the body has no lettered marker followed by
whitespace — a single flat content block with the body truncated to 5000
is emitted instead. -/
theorem C5_intro_and_flat :
    ∀ (s : Record),
      (s.subsections ≠ [] →
        ((∀ q, 0 < q → letterMarkerAt (s.text.data.drop q) = false) →
          introTexts (add_section_element s) = []) ∧
        (∀ p, 0 < p → letterMarkerAt (s.text.data.drop p) = true →
          (∀ q, 0 < q → q < p → letterMarkerAt (s.text.data.drop q) = false) →
          introTexts (add_section_element s) =
            [String.mk ((stripL (s.text.data.take p)).take 500)])) ∧
      (s.subsections = [] →
        contentTexts (add_section_element s) = [takeN s.text 5000]) ∧
      (parse_subsections s.text = [] ↔
        ∀ i, letterMarkerWsAt (s.text.data.drop i) = false) ∧
      childNames (add_section_element s) =
        ["num"] ++ (if s.title = "" then [] else ["heading"]) ++
        (if s.subsections.isEmpty then ["content"] else
          (match introCut s.text.data with
           | some _ => ["intro"]
           | none => []) ++ s.subsections.map (fun _ => "subsection")) ++
        (if s.history = "" then [] else ["notes"]) := by
  intro s
  refine ⟨?_, ?_, parse_subsections_empty_iff s.text, childNames_section s⟩
  · intro hne
    have hne' : s.subsections.isEmpty = false := by
      simpa [List.isEmpty_iff] using hne
    constructor
    · intro hnom
      rw [introTexts_section, hne']
      simp only [Bool.false_eq_true, if_false]
      rw [(introCut_none_iff s.text.data).mpr hnom]
    · intro p hp hm hmin
      rw [introTexts_section, hne']
      simp only [Bool.false_eq_true, if_false]
      rw [introCut_of_least s.text.data p hp hm hmin]
  · intro hnil
    rw [contentTexts_section]
    simp [hnil]

/-- Witness for C5: the intro branch at the least marker position of
`"  Hi. (a) X"` and the flat branch on a marker-free body. -/
theorem C5_intro_and_flat_witness :
    introTexts (add_section_element r5c) =
      [String.mk ((stripL ("  Hi. (a) X".data.take 6)).take 500)] ∧
    contentTexts (add_section_element
      { section_number := "1-1-4", title := "", text := "Flat body.", history := "",
        chapter := "1", subsections := parse_subsections "Flat body." }) =
      [takeN "Flat body." 5000] := by
  constructor
  · exact ((C5_intro_and_flat r5c).1 (by decide)).2 6 (by decide) (by decide)
      (by intro q h1 h2; interval_cases q <;> decide)
  · exact (C5_intro_and_flat
      { section_number := "1-1-4", title := "", text := "Flat body.", history := "",
        chapter := "1", subsections := parse_subsections "Flat body." }).2.1 (by decide)

/-! ## Claim C4 -/

/-- C4 is false as stated: `"&amp;lt;"` normalizes to `"&lt;"`, and a
second pass decodes that to `"<"`, because `html.unescape` runs on every
call, also on already-clean output. -/
theorem C4_counterexample :
    clean_html_content (clean_html_content "&amp;lt;") ≠
      clean_html_content "&amp;lt;" := by
  decide

theorem unescapeGo_id : ∀ (f : Nat) (l : List Char), '&' ∉ l →
    unescapeGo f l = l := by
  intro f
  induction f with
  | zero => intro l _; rfl
  | succ f ih =>
    intro l h
    match l with
    | [] => rfl
    | c :: rest =>
      have hc : c ≠ '&' := fun he => h (he ▸ List.mem_cons_self ..)
      rw [unescapeGo, if_neg hc]
      rw [ih rest (fun hm => h (List.mem_cons_of_mem _ hm))]

theorem lowerEq_gt_left (c : Char) (h : lowerEq '>' c = true) : c = '>' := by
  simp only [lowerEq, Bool.or_eq_true, Bool.and_eq_true, decide_eq_true_eq] at h
  rcases h with h | ⟨⟨h1, -⟩, -⟩
  · exact h.symm
  · exact absurd h1 (by decide)

theorem lowerEq_gt_right (c : Char) (h : lowerEq c '>' = true) : c = '>' := by
  simp only [lowerEq, Bool.or_eq_true, Bool.and_eq_true, decide_eq_true_eq] at h
  rcases h with h | ⟨⟨h1, h2⟩, h3⟩
  · exact h
  · exfalso
    have hgt : ('>').toNat = 62 := by decide
    rw [hgt] at h3
    omega

theorem lowerEq_ne_gt (c p : Char) (hp : p ≠ '>') (h : lowerEq c p = true) :
    c ≠ '>' := by
  intro he
  subst he
  exact hp (lowerEq_gt_left p h)

theorem matchCI_suffix : ∀ (pat l r : List Char), matchCI pat l = some r →
    ∃ pre, l = pre ++ r := by
  intro pat
  induction pat with
  | nil =>
    intro l r h
    injection h with h
    subst h
    exact ⟨[], rfl⟩
  | cons p ps ih =>
    intro l r h
    match l with
    | [] => cases h
    | c :: cs =>
      rw [matchCI] at h
      by_cases hle : lowerEq c p
      · rw [if_pos hle] at h
        obtain ⟨pre, hpre⟩ := ih cs r h
        exact ⟨c :: pre, by rw [hpre]; rfl⟩
      · rw [if_neg hle] at h
        cases h

theorem matchCI_gt_mem : ∀ (pat l r : List Char), matchCI pat l = some r →
    '>' ∈ pat → '>' ∈ l := by
  intro pat
  induction pat with
  | nil => intro l r _ hm; cases hm
  | cons p ps ih =>
    intro l r h hm
    match l with
    | [] => cases h
    | c :: cs =>
      rw [matchCI] at h
      by_cases hle : lowerEq c p
      · rw [if_pos hle] at h
        rcases List.mem_cons.mp hm with he | hm2
        · have : c = '>' := lowerEq_gt_right c (he ▸ hle)
          exact this ▸ List.mem_cons_self ..
        · exact List.mem_cons_of_mem _ (ih cs r h hm2)
      · rw [if_neg hle] at h
        cases h

theorem matchCI_head (p : Char) (ps l r : List Char)
    (h : matchCI (p :: ps) l = some r) :
    ∃ c cs, l = c :: cs ∧ lowerEq c p = true := by
  match l with
  | [] => cases h
  | c :: cs =>
    rw [matchCI] at h
    by_cases hle : lowerEq c p
    · exact ⟨c, cs, rfl, hle⟩
    · rw [if_neg hle] at h
      cases h

theorem tagAtHead_intro (d : Char) (t : List Char) (hd : d ≠ '>')
    (hgt : '>' ∈ d :: t) : tagAtHead ('<' :: (d :: t)) = true := by
  have hgt_t : '>' ∈ t := by
    rcases List.mem_cons.mp hgt with he | hm
    · exact absurd he.symm hd
    · exact hm
  obtain ⟨b, a, hfg⟩ := firstGt_pos_of d t hd hgt_t
  simp [tagAtHead, hfg]

theorem head_dropWhile_false (q : Char → Bool) :
    ∀ (l : List Char) (c : Char) (t : List Char),
      l.dropWhile q = c :: t → q c = false := by
  intro l
  induction l with
  | nil => intro c t h; cases h
  | cons x xs ih =>
    intro c t h
    rw [List.dropWhile_cons] at h
    by_cases hq : q x
    · rw [if_pos hq] at h
      exact ih c t h
    · rw [if_neg hq] at h
      injection h with h1 _
      subst h1
      simpa using hq

theorem mem_of_dropWhile (q : Char → Bool) (l : List Char) (x : Char)
    (h : x ∈ l.dropWhile q) : x ∈ l :=
  (List.dropWhile_sublist q).subset h

/-- Every successful whitelist-tag match witnesses a generic tag at the
same `<`. -/
theorem matchCI_tag (pat : List Char) (p0 : Char) (ps : List Char)
    (hpat : pat = p0 :: ps) (hp0 : p0 ≠ '>') (hgt : '>' ∈ pat)
    (rest r : List Char) (h : matchCI pat rest = some r) :
    tagAtHead ('<' :: rest) = true := by
  subst hpat
  obtain ⟨c, cs, hrest, hle⟩ := matchCI_head p0 ps rest r h
  subst hrest
  exact tagAtHead_intro c cs (lowerEq_ne_gt c p0 hp0 hle)
    (matchCI_gt_mem (p0 :: ps) (c :: cs) r h hgt)

theorem matchBRTail_tag (rest r : List Char) (h : matchBRTail rest = some r) :
    tagAtHead ('<' :: rest) = true := by
  rw [matchBRTail] at h
  cases hci : matchCI "br".data rest with
  | none => rw [hci] at h; cases h
  | some rest2 =>
    rw [hci] at h
    dsimp only at h
    obtain ⟨c, cs, hrest, hle⟩ := matchCI_head 'b' "r".data rest rest2 hci
    subst hrest
    have hcne : c ≠ '>' := lowerEq_ne_gt c 'b' (by decide) hle
    have hgt2 : '>' ∈ rest2.dropWhile isWs := by
      split at h
      case h_1 tail heq => rw [heq]; simp
      case h_2 tail heq => rw [heq]; simp
      case h_3 => cases h
    have hgtrest2 : '>' ∈ rest2 := mem_of_dropWhile isWs rest2 '>' hgt2
    obtain ⟨pre, hpre⟩ := matchCI_suffix "br".data (c :: cs) rest2 hci
    have hgtrest : '>' ∈ c :: cs := by
      rw [hpre]
      exact List.mem_append.mpr (Or.inr hgtrest2)
    exact tagAtHead_intro c cs hcne hgtrest

theorem matchFontTail_tag (rest r : List Char) (h : matchFontTail rest = some r) :
    tagAtHead ('<' :: rest) = true := by
  rw [matchFontTail] at h
  cases hci : matchCI "font".data rest with
  | none => rw [hci] at h; cases h
  | some rest2 =>
    rw [hci] at h
    dsimp only at h
    obtain ⟨c, cs, hrest, hle⟩ := matchCI_head 'f' "ont".data rest rest2 hci
    subst hrest
    have hcne : c ≠ '>' := lowerEq_ne_gt c 'f' (by decide) hle
    have hgt2 : '>' ∈ rest2.dropWhile (fun c => c ≠ '>') := by
      cases hdw : rest2.dropWhile (fun c => c ≠ '>') with
      | nil => rw [hdw] at h; cases h
      | cons d t =>
        have := head_dropWhile_false _ rest2 d t hdw
        have hd : d = '>' := by simpa using this
        rw [hd]
        simp
    have hgtrest2 : '>' ∈ rest2 := mem_of_dropWhile _ rest2 '>' hgt2
    obtain ⟨pre, hpre⟩ := matchCI_suffix "font".data (c :: cs) rest2 hci
    have hgtrest : '>' ∈ c :: cs := by
      rw [hpre]
      exact List.mem_append.mpr (Or.inr hgtrest2)
    exact tagAtHead_intro c cs hcne hgtrest

theorem hasTagB_tail (c : Char) (rest : List Char)
    (h : hasTagB (c :: rest) = false) : hasTagB rest = false := by
  rw [hasTagB, Bool.or_eq_false_iff] at h
  exact h.2

theorem tagAtHead_false_of (c : Char) (rest : List Char)
    (h : hasTagB (c :: rest) = false) : tagAtHead (c :: rest) = false := by
  rw [hasTagB, Bool.or_eq_false_iff] at h
  exact h.1

/-- A whitelist-tag substitution pass leaves any tag-free string
unchanged, for every matcher that only fires at a generic tag. -/
theorem subTagGo_id (m : List Char → Option (List Char)) (repl : List Char)
    (hm : ∀ rest r, m rest = some r → tagAtHead ('<' :: rest) = true) :
    ∀ (f : Nat) (l : List Char), hasTagB l = false → subTagGo m repl f l = l := by
  intro f
  induction f with
  | zero => intro l _; rfl
  | succ f ih =>
    intro l h
    match l with
    | [] => rfl
    | c :: rest =>
      have hrest := hasTagB_tail c rest h
      by_cases hc : c = '<'
      · subst hc
        rw [subTagGo, if_pos rfl]
        cases hmm : m rest with
        | some r =>
          have hf := tagAtHead_false_of '<' rest h
          rw [hm rest r hmm] at hf
          cases hf
        | none =>
          dsimp only
          rw [ih rest hrest]
      · rw [subTagGo, if_neg hc, ih rest hrest]

/-- The generic tag deletion leaves any tag-free string unchanged. -/
theorem remTagsGo_id : ∀ (fuel : Nat) (l : List Char), hasTagB l = false →
    remTagsGo fuel l = l := by
  intro fuel
  induction fuel with
  | zero => intro l _; rfl
  | succ f ih =>
    intro l h
    match l with
    | [] => rfl
    | c :: rest =>
      have hrest := hasTagB_tail c rest h
      by_cases hc : c = '<'
      · subst hc
        rw [remTagsGo, if_pos rfl]
        cases hfg : firstGt rest with
        | none => rfl
        | some p =>
          obtain ⟨b, a⟩ := p
          by_cases hb : b.isEmpty
          · dsimp only
            rw [if_pos hb, ih rest hrest]
          · exfalso
            have htag : tagAtHead ('<' :: rest) = true := by
              simp only [tagAtHead, hfg]
              simp [List.isEmpty_iff] at hb ⊢
              exact hb
            have hf := tagAtHead_false_of '<' rest h
            rw [htag] at hf
            cases hf
      · rw [remTagsGo, if_neg hc, ih rest hrest]

theorem orElse_tag (m1 m2 : List Char → Option (List Char))
    (h1 : ∀ rest r, m1 rest = some r → tagAtHead ('<' :: rest) = true)
    (h2 : ∀ rest r, m2 rest = some r → tagAtHead ('<' :: rest) = true) :
    ∀ rest r, (m1 rest).orElse (fun _ => m2 rest) = some r →
      tagAtHead ('<' :: rest) = true := by
  intro rest r h
  cases hm : m1 rest with
  | some v => exact h1 rest v hm
  | none =>
    rw [hm] at h
    exact h2 rest r (by simpa [Option.orElse] using h)

theorem subBR_id (l : List Char) (h : hasTagB l = false) : subBR l = l :=
  subTagGo_id matchBRTail ['\n'] matchBRTail_tag l.length l h

theorem subPopen_id (l : List Char) (h : hasTagB l = false) : subPopen l = l :=
  subTagGo_id (matchCI "p>".data) ['\n']
    (fun rest r hr =>
      matchCI_tag "p>".data 'p' ['>'] (by decide) (by decide) (by decide) rest r hr)
    l.length l h

theorem subPclose_id (l : List Char) (h : hasTagB l = false) : subPclose l = l :=
  subTagGo_id (matchCI "/p>".data) []
    (fun rest r hr =>
      matchCI_tag "/p>".data '/' ['p', '>'] (by decide) (by decide) (by decide)
        rest r hr)
    l.length l h

theorem subStrong_id (l : List Char) (h : hasTagB l = false) : subStrong l = l :=
  subTagGo_id _ []
    (orElse_tag (matchCI "strong>".data) (matchCI "/strong>".data)
      (fun rest r hr =>
        matchCI_tag "strong>".data 's' "trong>".data (by decide) (by decide)
          (by decide) rest r hr)
      (fun rest r hr =>
        matchCI_tag "/strong>".data '/' "strong>".data (by decide) (by decide)
          (by decide) rest r hr))
    l.length l h

theorem subB_id (l : List Char) (h : hasTagB l = false) : subB l = l :=
  subTagGo_id _ []
    (orElse_tag (matchCI "b>".data) (matchCI "/b>".data)
      (fun rest r hr =>
        matchCI_tag "b>".data 'b' ['>'] (by decide) (by decide) (by decide)
          rest r hr)
      (fun rest r hr =>
        matchCI_tag "/b>".data '/' "b>".data (by decide) (by decide) (by decide)
          rest r hr))
    l.length l h

theorem subFont_id (l : List Char) (h : hasTagB l = false) : subFont l = l :=
  subTagGo_id _ []
    (orElse_tag matchFontTail (matchCI "/font>".data)
      matchFontTail_tag
      (fun rest r hr =>
        matchCI_tag "/font>".data '/' "font>".data (by decide) (by decide)
          (by decide) rest r hr))
    l.length l h

/-- Collapsed-blank-line normal form: a newline whose following
whitespace run holds another newline must open an exact blank line
(`"\n\n"`), after which the whitespace run holds no further newline. -/
def normC : List Char → Bool
  | [] => true
  | c :: rest =>
    if c = '\n' then
      if (rest.takeWhile isWs).contains '\n' then
        decide (rest.head? = some '\n') &&
          (!(((rest.drop 1).takeWhile isWs).contains '\n') && normC rest)
      else normC rest
    else normC rest

theorem takeWhile_append_all (p : Char → Bool) :
    ∀ (l₁ l₂ : List Char), (∀ a ∈ l₁, p a = true) →
      (l₁ ++ l₂).takeWhile p = l₁ ++ l₂.takeWhile p := by
  intro l₁
  induction l₁ with
  | nil => intro l₂ _; rfl
  | cons c t ih =>
    intro l₂ h
    rw [List.cons_append, List.takeWhile_cons,
      if_pos (h c (List.mem_cons_self ..)), ih l₂
        (fun a ha => h a (List.mem_cons_of_mem _ ha)), List.cons_append]

theorem no_nl_afterLastNl (run : List Char) : '\n' ∉ afterLastNl run := by
  intro h
  unfold afterLastNl at h
  rw [List.mem_reverse] at h
  have := List.mem_takeWhile_imp h
  simp at this

theorem afterLastNl_cons_no_nl (r : List Char) (h : '\n' ∉ r) :
    afterLastNl ('\n' :: r) = r := by
  unfold afterLastNl
  rw [List.reverse_cons]
  rw [takeWhile_append_all _ r.reverse ['\n']
    (fun a ha => by
      have : a ∈ r := List.mem_reverse.mp ha
      simp only [decide_eq_true_eq]
      intro he
      exact h (he ▸ this))]
  simp

theorem afterLastNl_length_lt (run : List Char) (h : '\n' ∈ run) :
    (afterLastNl run).length < run.length := by
  have hdec := run_decomp run
  have hne : run.reverse.dropWhile (fun c => c ≠ '\n') ≠ [] := by
    intro hnil
    have : ∀ x ∈ run.reverse, decide (x ≠ '\n') = true := by
      intro x hx
      have := List.dropWhile_eq_nil_iff.mp hnil
      exact this x hx
    have h2 := this '\n' (List.mem_reverse.mpr h)
    simp at h2
  have hpos : 0 < (run.reverse.dropWhile (fun c => c ≠ '\n')).reverse.length := by
    rw [List.length_reverse]
    exact List.length_pos.mpr hne
  have hlen := congrArg List.length hdec
  rw [List.length_append] at hlen
  omega

/-- A run of non-newline whitespace passes through the blank-line
collapse untouched. -/
theorem collapseGo_ws_run : ∀ (run : List Char) (f : Nat) (t : List Char),
    (∀ c ∈ run, isWs c = true ∧ c ≠ '\n') →
    collapseGo (run.length + f) (run ++ t) = run ++ collapseGo f t := by
  intro run
  induction run with
  | nil => intro f t _; simp
  | cons c run' ih =>
    intro f t h
    have hc := h c (List.mem_cons_self ..)
    have harith : (c :: run').length + f = (run'.length + f) + 1 := by
      simp only [List.length_cons]
      omega
    rw [harith, List.cons_append, collapseGo, if_neg hc.2,
      ih f t (fun a ha => h a (List.mem_cons_of_mem _ ha)), List.cons_append]

/-- The leading whitespace of a collapsed string whose input decomposes
as a pure non-newline whitespace run followed by a non-whitespace head. -/
theorem takeWhile_ws_collapse (f : Nat) (run t : List Char)
    (hrun : ∀ c ∈ run, isWs c = true ∧ c ≠ '\n')
    (ht : ∀ d t', t = d :: t' → isWs d = false)
    (hf : run.length ≤ f) :
    (collapseGo f (run ++ t)).takeWhile isWs = run := by
  obtain ⟨f', rfl⟩ : ∃ f', f = run.length + f' := ⟨f - run.length, by omega⟩
  rw [collapseGo_ws_run run f' t hrun]
  cases t with
  | nil =>
    rw [collapseGo_nil, List.append_nil]
    have h2 := takeWhile_append_all isWs run [] (fun a ha => (hrun a ha).1)
    simpa using h2
  | cons d t' =>
    obtain ⟨t'', ht''⟩ := collapseGo_head f' d t'
    rw [ht'', takeWhile_append_all isWs run _ (fun a ha => (hrun a ha).1),
      List.takeWhile_cons, if_neg (by simp [ht d t' rfl])]
    simp

theorem normC_blank_cons (f : Nat) (M : List Char)
    (hnorm : normC (collapseGo f M) = true)
    (hnoNl : ((collapseGo f M).takeWhile isWs).contains '\n' = false) :
    normC ('\n' :: '\n' :: collapseGo f M) = true := by
  have hnm : '\n' ∉ List.takeWhile isWs (collapseGo f M) := by
    simpa using hnoNl
  have hinner : normC ('\n' :: collapseGo f M) = true := by
    rw [normC, if_pos rfl, if_neg (by simp [hnm])]
    exact hnorm
  rw [normC, if_pos rfl]
  have hcond : ((('\n' :: collapseGo f M).takeWhile isWs).contains '\n') = true := by
    rw [List.takeWhile_cons, if_pos (by decide : isWs '\n' = true)]
    simp
  rw [if_pos hcond]
  simp [hnm, hinner]

/-- The blank-line collapse always lands in the normal form. -/
theorem normC_collapseGo : ∀ (f : Nat) (l : List Char), l.length ≤ f →
    normC (collapseGo f l) = true := by
  intro f
  induction f with
  | zero =>
    intro l hl
    rw [Nat.le_zero, List.length_eq_zero] at hl
    subst hl
    rfl
  | succ f ih =>
    intro l hl
    match l with
    | [] => rfl
    | c :: rest =>
      have hrl : rest.length ≤ f := by
        simp only [List.length_cons] at hl
        omega
      by_cases hc : c = '\n'
      · subst hc
        by_cases hrun : (rest.takeWhile isWs).contains '\n'
        · rw [collapseGo, if_pos rfl, if_pos hrun]
          have hmem : '\n' ∈ rest.takeWhile isWs := by simpa using hrun
          have hlt := afterLastNl_length_lt (rest.takeWhile isWs) hmem
          have hsplit : ((rest.takeWhile isWs) ++ (rest.dropWhile isWs)).length =
              rest.length := by
            rw [List.takeWhile_append_dropWhile]
          rw [List.length_append] at hsplit
          have hM : (afterLastNl (rest.takeWhile isWs) ++
              rest.dropWhile isWs).length ≤ f := by
            rw [List.length_append]
            omega
          have hA : ∀ c0 ∈ afterLastNl (rest.takeWhile isWs),
              isWs c0 = true ∧ c0 ≠ '\n' := by
            intro c0 hc0
            refine ⟨List.mem_takeWhile_imp (mem_afterLastNl _ _ hc0), ?_⟩
            intro he
            exact no_nl_afterLastNl _ (he ▸ hc0)
          have hB : ∀ d t', rest.dropWhile isWs = d :: t' → isWs d = false :=
            fun d t' hdt => head_dropWhile_false isWs rest d t' hdt
          have hfA : (afterLastNl (rest.takeWhile isWs)).length ≤ f := by omega
          have htw := takeWhile_ws_collapse f _ _ hA hB hfA
          have hnoNl : ((collapseGo f (afterLastNl (rest.takeWhile isWs) ++
              rest.dropWhile isWs)).takeWhile isWs).contains '\n' = false := by
            rw [htw]
            simpa using no_nl_afterLastNl (rest.takeWhile isWs)
          exact normC_blank_cons f _ (ih _ hM) hnoNl
        · rw [collapseGo, if_pos rfl, if_neg hrun]
          rw [normC, if_pos rfl]
          have hA : ∀ c0 ∈ rest.takeWhile isWs, isWs c0 = true ∧ c0 ≠ '\n' := by
            intro c0 hc0
            refine ⟨List.mem_takeWhile_imp hc0, ?_⟩
            intro he
            subst he
            exact hrun (by simpa using hc0)
          have hB : ∀ d t', rest.dropWhile isWs = d :: t' → isWs d = false :=
            fun d t' hdt => head_dropWhile_false isWs rest d t' hdt
          have hsub : List.Sublist (rest.takeWhile isWs) rest :=
            List.takeWhile_sublist _
          have hfA : (rest.takeWhile isWs).length ≤ f :=
            le_trans hsub.length_le hrl
          have htw := takeWhile_ws_collapse f _ _ hA hB hfA
          rw [List.takeWhile_append_dropWhile] at htw
          rw [htw, if_neg hrun]
          exact ih rest hrl
      · rw [collapseGo, if_neg hc, normC, if_neg hc]
        exact ih rest hrl

/-- Any string in the normal form is a fixed point of the blank-line
collapse, at every fuel. -/
theorem collapseGo_id_of_normC : ∀ (f : Nat) (l : List Char), normC l = true →
    collapseGo f l = l := by
  intro f
  induction f with
  | zero => intro l _; rfl
  | succ f ih =>
    intro l h
    match l with
    | [] => rfl
    | c :: rest =>
      by_cases hc : c = '\n'
      · subst hc
        rw [normC, if_pos rfl] at h
        by_cases hrun : (rest.takeWhile isWs).contains '\n'
        · rw [if_pos hrun] at h
          simp only [Bool.and_eq_true, Bool.not_eq_true', decide_eq_true_eq] at h
          obtain ⟨hhead, hno, hrest⟩ := h
          cases rest with
          | nil => simp at hhead
          | cons d rest2 =>
            have hd : d = '\n' := by simpa using hhead
            subst hd
            have hno2 : ((rest2.takeWhile isWs).contains '\n') = false := by
              simpa using hno
            have hnm2 : '\n' ∉ rest2.takeWhile isWs := by simpa using hno2
            have hrest2 : normC rest2 = true := by
              rw [normC, if_pos rfl, if_neg (by simp [hnm2])] at hrest
              exact hrest
            rw [collapseGo, if_pos rfl, if_pos hrun]
            have htw : List.takeWhile isWs ('\n' :: rest2) =
                '\n' :: List.takeWhile isWs rest2 := by
              rw [List.takeWhile_cons, if_pos (by decide : isWs '\n' = true)]
            have hdw : List.dropWhile isWs ('\n' :: rest2) =
                List.dropWhile isWs rest2 := by
              rw [List.dropWhile_cons, if_pos (by decide : isWs '\n' = true)]
            rw [htw, hdw, afterLastNl_cons_no_nl _ hnm2,
              List.takeWhile_append_dropWhile, ih rest2 hrest2]
        · rw [if_neg hrun] at h
          rw [collapseGo, if_pos rfl, if_neg hrun, ih rest h]
      · rw [normC, if_neg hc] at h
        rw [collapseGo, if_neg hc, ih rest h]

theorem normC_tail (c : Char) (rest : List Char) (h : normC (c :: rest) = true) :
    normC rest = true := by
  rw [normC] at h
  by_cases hc : c = '\n'
  · rw [if_pos hc] at h
    by_cases hrun : (rest.takeWhile isWs).contains '\n'
    · rw [if_pos hrun] at h
      simp only [Bool.and_eq_true] at h
      exact h.2.2
    · rw [if_neg hrun] at h
      exact h
  · rw [if_neg hc] at h
    exact h

theorem normC_dropWhile (l : List Char) (h : normC l = true) :
    normC (l.dropWhile isWs) = true := by
  induction l with
  | nil => exact h
  | cons c rest ih =>
    rw [List.dropWhile_cons]
    by_cases hw : isWs c
    · rw [if_pos hw]
      exact ih (normC_tail c rest h)
    · rw [if_neg hw]
      exact h

theorem mem_takeWhile_append (p : Char → Bool) :
    ∀ (a m : List Char) (x : Char),
      x ∈ a.takeWhile p → x ∈ (a ++ m).takeWhile p := by
  intro a
  induction a with
  | nil => intro m x hx; simp at hx
  | cons c t ih =>
    intro m x hx
    rw [List.takeWhile_cons] at hx
    by_cases hp : p c
    · rw [if_pos hp] at hx
      rw [List.cons_append, List.takeWhile_cons, if_pos hp]
      rcases List.mem_cons.mp hx with he | hm
      · exact he ▸ List.mem_cons_self ..
      · exact List.mem_cons_of_mem _ (ih m x hm)
    · rw [if_neg hp] at hx
      cases hx

theorem rstripL_idem (l : List Char) : rstripL (rstripL l) = rstripL l := by
  induction l with
  | nil => rfl
  | cons c rest ih =>
    rw [rstripL]
    cases hr : rstripL rest with
    | nil =>
      show rstripL (if isWs c then [] else [c]) = if isWs c then [] else [c]
      by_cases hw : isWs c
      · rw [if_pos hw]; rfl
      · rw [if_neg hw]
        simp only [rstripL]
        rw [if_neg hw]
    | cons d t =>
      show rstripL (c :: d :: t) = c :: d :: t
      rw [hr] at ih
      rw [rstripL, ih]

/-- `rstripL` preserves the collapsed normal form. -/
theorem normC_rstripL (l : List Char) (h : normC l = true) :
    normC (rstripL l) = true := by
  induction l with
  | nil => exact h
  | cons c rest ih =>
    rw [rstripL]
    cases hr : rstripL rest with
    | nil =>
      show normC (if isWs c then [] else [c]) = true
      by_cases hw : isWs c
      · rw [if_pos hw]; rfl
      · rw [if_neg hw, normC]
        by_cases hcn : c = '\n'
        · rw [if_pos hcn, if_neg (by simp)]
          rfl
        · rw [if_neg hcn]
          rfl
    | cons d t =>
      show normC (c :: d :: t) = true
      have hih : normC (d :: t) = true := by
        have h2 := ih (normC_tail c rest h)
        rwa [hr] at h2
      obtain ⟨m, hm⟩ := rstripL_prefix rest
      rw [hr] at hm
      rw [normC]
      by_cases hc : c = '\n'
      · rw [if_pos hc]
        by_cases hrun2 : (((d :: t).takeWhile isWs).contains '\n')
        · rw [if_pos hrun2]
          have hrun : ((rest.takeWhile isWs).contains '\n') = true := by
            have hmem : '\n' ∈ (d :: t).takeWhile isWs := by simpa using hrun2
            have hmem2 : '\n' ∈ ((d :: t) ++ m).takeWhile isWs :=
              mem_takeWhile_append isWs (d :: t) m '\n' hmem
            rw [← hm] at hmem2
            simpa using hmem2
          rw [normC, if_pos hc, if_pos hrun] at h
          simp only [Bool.and_eq_true, Bool.not_eq_true', decide_eq_true_eq] at h
          obtain ⟨hhead, hno, -⟩ := h
          have hd : d = '\n' := by
            rw [hm] at hhead
            simpa using hhead
          subst hd
          have hdrop : rest.drop 1 = t ++ m := by
            rw [hm]
            rfl
          have hnot : ((t.takeWhile isWs).contains '\n') = false := by
            by_contra hcon
            simp only [Bool.not_eq_false] at hcon
            have hmem2 : '\n' ∈ t.takeWhile isWs := by simpa using hcon
            have hmem3 : '\n' ∈ (t ++ m).takeWhile isWs :=
              mem_takeWhile_append isWs t m '\n' hmem2
            have hc3 : (((t ++ m).takeWhile isWs).contains '\n') = true := by
              simpa using hmem3
            rw [hdrop, hc3] at hno
            cases hno
          have hnm : '\n' ∉ List.takeWhile isWs t := by simpa using hnot
          simp [hnm, hih]
        · rw [if_neg hrun2]
          exact hih
      · rw [if_neg hc]
        exact hih

theorem normC_stripL (l : List Char) (h : normC l = true) :
    normC (stripL l) = true := by
  rw [stripL, lstripL]
  exact normC_rstripL _ (normC_dropWhile l h)

theorem lstripL_stripL (l : List Char) : lstripL (stripL l) = stripL l := by
  rw [stripL, lstripL, lstripL]
  cases hu : l.dropWhile isWs with
  | nil => rfl
  | cons d t =>
    have hd : isWs d = false := head_dropWhile_false isWs l d t hu
    rw [rstripL]
    cases hr : rstripL t with
    | nil =>
      show List.dropWhile isWs (if isWs d then [] else [d]) =
        if isWs d then [] else [d]
      rw [if_neg (by simp [hd]), List.dropWhile_cons, if_neg (by simp [hd])]
    | cons e s =>
      show List.dropWhile isWs (d :: e :: s) = d :: e :: s
      rw [List.dropWhile_cons, if_neg (by simp [hd])]

theorem stripL_stripL (l : List Char) : stripL (stripL l) = stripL l := by
  show rstripL (lstripL (stripL l)) = stripL l
  rw [lstripL_stripL]
  show rstripL (rstripL (lstripL l)) = stripL l
  rw [rstripL_idem, stripL]

theorem mk_data (s : String) : String.mk s.data = s := rfl

theorem clean_data (x : String) : (clean_html_content x).data =
    stripL (collapseBlank (remTags (subFont (subB (subStrong (subPclose
      (subPopen (subBR (unescapeL x.data))))))))) := by
  rw [clean_html_content, data_mk]

/-- The normalizer's output is in the collapsed normal form. -/
theorem clean_normC (x : String) : normC (clean_html_content x).data = true := by
  rw [clean_data, collapseBlank]
  exact normC_stripL _ (normC_collapseGo _ _ le_rfl)

/-- The normalizer's output is already stripped. -/
theorem clean_strip_idem (x : String) :
    stripL (clean_html_content x).data = (clean_html_content x).data := by
  rw [clean_data]
  exact stripL_stripL _

/-- Any ampersand-free, tag-free, collapsed, stripped string is a fixed
point of the normalizer. -/
theorem clean_fixed (l : List Char) (h1 : '&' ∉ l) (h2 : hasTagB l = false)
    (h3 : normC l = true) (h4 : stripL l = l) :
    clean_html_content (String.mk l) = String.mk l := by
  rw [clean_html_content, data_mk, unescapeL, unescapeGo_id _ _ h1,
    subBR_id _ h2, subPopen_id _ h2, subPclose_id _ h2, subStrong_id _ h2,
    subB_id _ h2, subFont_id _ h2, remTags, remTagsGo_id _ _ h2,
    collapseBlank, collapseGo_id_of_normC _ _ h3, h4]

/-- C4 (amended): the normalizer is idempotent on every input whose
cleaned output contains no ampersand; the counterexample shows the
unconditional claim fails, because `html.unescape` runs on every call
and re-decodes entity names still present in cleaned output. -/
theorem C4_idempotent_on_amp_free (x : String)
    (h : '&' ∉ (clean_html_content x).data) :
    clean_html_content (clean_html_content x) = clean_html_content x := by
  have h2 := clean_fixed (clean_html_content x).data h (clean_noTag x)
    (clean_normC x) (clean_strip_idem x)
  rwa [mk_data] at h2

theorem C4_idempotent_on_amp_free_witness :
    '&' ∉ (clean_html_content "a &lt;b&gt; c").data ∧
      clean_html_content (clean_html_content "a &lt;b&gt; c") =
        clean_html_content "a &lt;b&gt; c" :=
  ⟨by decide, C4_idempotent_on_amp_free "a &lt;b&gt; c" (by decide)⟩
